import Mathlib

/-!
# Verification of the BEIR multi-GPU dense exact-search pipeline

Shallow embedding of `beir/retrieval/search/dense/exact_search_multi_gpu.py`:
the `DenseRetrievalParallelExactSearch` coordinator, its worker routine
`_encode_multi_process_worker`, the `DummyMetric` collector with its sentinel
warmup record, and the final merge/format stage of `search`.

Modelling conventions:
* Similarity scores are rationals; a torch NaN entry is modelled as `none`
  (`Option ℚ`), so the worker's `cos_scores[torch.isnan(cos_scores)] = -1`
  becomes an explicit replacement function.
* Embedding models are out of scope (per the spec): an item carries its
  embedding vector directly, and encoding is the identity on stored vectors.
* Python `list[i]` indexing (with its negative-index wrap and `IndexError`)
  and the `DataLoader` batch-size positivity check are modelled in the
  `Except String` monad; a `.error` result models a raised Python exception.
* `torch.topk(..., largest=True, sorted=False)` returns the k largest entries
  of a row in some deterministic but unspecified order; we model it as a
  stable descending sort followed by `take k`, which realizes that contract.
-/

namespace BeirMultiGPU

/-- A corpus or query record: a stable id, the raw text fields used only for
the length-based corpus sort, and the embedding vector the (out-of-scope)
model would produce for it. -/
structure Item where
  id : String
  text : String
  title : Option String := none
  vec : List ℚ
deriving DecidableEq

/-- `len(x.get("title", "") + x.get("text", ""))`: the sort key computed by
`corpus.map(lambda x: ...)` in `search`. -/
def itemLen (it : Item) : Nat := (it.title.getD "" ++ it.text).length

/-- `corpus.sort('len', reverse=True)`: reorder the corpus by descending
title+text length (stable on ties). -/
def sortCorpus (corpus : List Item) : List Item :=
  corpus.mergeSort (fun a b => decide (itemLen b ≤ itemLen a))

/-- Dot product of two embedding vectors. -/
def dotp (a b : List ℚ) : ℚ := (List.zipWith (· * ·) a b).sum

/-- Squared Euclidean norm of an embedding vector. -/
def normSq (a : List ℚ) : ℚ := dotp a a

/-- Rational square root, exact on perfect-square numerators/denominators.
Only nonnegative rationals whose square root is rational ever reach it in the
theorems below (the claims use it on `0` and `1`). -/
def ratSqrt (q : ℚ) : ℚ := (Nat.sqrt q.num.toNat : ℚ) / (Nat.sqrt q.den : ℚ)

/-- Modelled from the spec (the imported `util.cos_sim` is not part of the
given sources): "cos_sim (cosine similarity — normalize both inputs, then dot
product)"; "Any score that is not-a-number (e.g., from a zero vector under
cosine similarity)". Normalizing a zero vector divides by a zero norm, so any
pair involving a zero vector yields NaN (`none`); otherwise the entry is
`dot a b / (sqrt (normSq a) * sqrt (normSq b))`. Returns the full
query × corpus score matrix, `S[i][j] = similarity(Q[i], C[j])`. -/
def cos_sim (Q C : List (List ℚ)) : List (List (Option ℚ)) :=
  Q.map (fun q => C.map (fun c =>
    if normSq q = 0 ∨ normSq c = 0 then none
    else some (dotp q c / (ratSqrt (normSq q) * ratSqrt (normSq c)))))

/-- Modelled from the spec (the imported `util.dot_score` is not part of the
given sources): "dot (raw dot product, no normalization)". -/
def dot_score (Q C : List (List ℚ)) : List (List (Option ℚ)) :=
  Q.map (fun q => C.map (fun c => some (dotp q c)))

/-- `self.score_functions = {'cos_sim': cos_sim, 'dot': dot_score}`: dispatch
by name (only reached for validated names). -/
def scoreMatrix (name : String) (Q C : List (List ℚ)) : List (List (Option ℚ)) :=
  if name = "cos_sim" then cos_sim Q C else dot_score Q C

/-- `cos_scores[torch.isnan(cos_scores)] = -1`: a NaN entry becomes the
sentinel minimal value `-1`; real entries pass through. -/
def replaceNaN (x : Option ℚ) : ℚ :=
  match x with
  | none => -1
  | some v => v

/-- `torch.topk(row, k, largest=True, sorted=False)` on one row: the `k`
largest `(value, original index)` pairs, realized as a stable descending sort
by value followed by `take k`. -/
def topkSelect (k : Nat) (row : List ℚ) : List (ℚ × Nat) :=
  ((row.enum.map (fun p => (p.2, p.1))).mergeSort
    (fun a b => decide (b.1 ≤ a.1))).take k

/-- Transpose of a `m × k` rectangular matrix given as rows of length `k`
(torch `.T`); `dflt` is returned for absent entries and is never consulted on
the rectangular matrices the pipeline produces. -/
def transposeK (k : Nat) (m : List (List α)) (dflt : α) : List (List α) :=
  (List.range k).map (fun j => m.map (fun r => r.getD j dflt))

/-- One row of the `DummyMetric` Arrow table: `add_batch` stores the
transposed value matrix, the transposed index matrix and a replicated batch
index, so each stored row is one local candidate rank `j`, holding that
candidate's value and local index for every query. -/
structure Row where
  values : List ℚ
  indices : List Int
  batch_index : Int
deriving DecidableEq

/-- `DummyMetric.warmup`: `add_batch(values=torch.ones((1,5)),
idx=torch.ones((1,5)), batch_index=[-1])` appends exactly one row of five
ones tagged with batch index `-1`. -/
def sentinelRow : Row :=
  { values := List.replicate 5 1, indices := List.replicate 5 1, batch_index := -1 }

/-- Worker body for one chunk (`_encode_multi_process_worker` lines 162-171):
replace NaNs by `-1`, select per query the `min(top_k + 1, len(cos_scores[1]))`
largest scores, transpose values and indices, and emit one table row per local
candidate rank tagged with the chunk id. `cos_scores[1]` raises `IndexError`
when there are fewer than two queries. -/
def workerRows (raw : List (List (Option ℚ))) (top_k : Nat) (chunk_id : Int) :
    Except String (List Row) :=
  let cos_scores := raw.map (fun r => r.map replaceNaN)
  if cos_scores.length < 2 then
    Except.error "IndexError: index 1 is out of bounds"
  else
    let k := min (top_k + 1) (cos_scores.getD 1 []).length
    let sel := cos_scores.map (fun r => topkSelect k r)
    let valuesT := transposeK k (sel.map (fun s => s.map Prod.fst)) 0
    let idxT := transposeK k (sel.map (fun s => s.map Prod.snd)) 0
    Except.ok ((valuesT.zip idxT).map (fun p =>
      { values := p.1, indices := p.2.map Int.ofNat, batch_index := chunk_id }))

/-- Concatenate the table rows emitted for a stream of
`(chunk_id, score matrix)` work items, in stream order. -/
def accumRows (top_k : Nat) (items : List (Int × List (List (Option ℚ)))) :
    Except String (List Row) :=
  items.foldlM (fun acc p => do
      let r ← workerRows p.2 top_k p.1
      pure (acc ++ r)) []

/-- The per-worker record stream (`_encode_multi_process_worker`): first the
warmup sentinel, then, for each `(chunk_id, score matrix)` item pulled from
the input queue, that chunk's emitted table rows. -/
def workerTrace (assigned : List (Int × List (List (Option ℚ)))) (top_k : Nat) :
    Except String (List Row) := do
  let rows ← accumRows top_k assigned
  pure (sentinelRow :: rows)

/-- Split a list into consecutive chunks of size `cs` (torch `DataLoader`
batching); `cs = 0` is never reached by the pipeline (guarded by the
batch-size positivity check). -/
def chunkList (cs : Nat) : List α → List (List α)
  | [] => []
  | a :: l =>
    if h : cs = 0 then []
    else ((a :: l).take cs) :: chunkList cs ((a :: l).drop cs)
  termination_by l => l.length
  decreasing_by simp; omega

/-- The full collector table `metric.compute()` hands to the merge stage: one
warmup sentinel per worker process, then every chunk's rows, chunks being the
corpus stream cut into `csN`-sized batches and enumerated from 0.  (The real
interleaving across workers is a permutation of this with each worker's
sentinel first; the merge theorems below are insensitive to row order.) -/
def searchTable (numDevices csN : Nat) (queryEmb : List (List ℚ))
    (corpusStream : List Item) (top_k : Nat) (score_function : String) :
    Except String (List Row) := do
  let rows ← accumRows top_k ((chunkList csN corpusStream).enum.map (fun p =>
    (Int.ofNat p.1, scoreMatrix score_function queryEmb (p.2.map Item.vec))))
  pure (List.replicate numDevices sentinelRow ++ rows)

/-- Python `l[i]`: wrap a negative index by `+ len(l)`, raise `IndexError`
outside `[-len(l), len(l))`. -/
def pyIndex (l : List α) (i : Int) : Except String α :=
  let j : Int := if i < 0 then i + l.length else i
  if h : 0 ≤ j ∧ j.toNat < l.length then Except.ok (l.get ⟨j.toNat, h.2⟩)
  else Except.error "IndexError: list index out of range"

/-- `sub_corpus_id = cos_scores_top_k_idx[i][query_itr] + batch_num *
self.corpus_chunk_size`: the global corpus position of a local candidate. -/
def globalPosition (idx batch_index cs : Int) : Int := idx + batch_index * cs

/-- Python-dict assignment `d[k] = v` on an insertion-ordered association
list: replace in place if the key exists, else append. -/
def upsert (k : String) (v : ℚ) : List (String × ℚ) → List (String × ℚ)
  | [] => [(k, v)]
  | (k0, v0) :: rest => if k0 = k then (k, v) :: rest else (k0, v0) :: upsert k v rest

/-- The inner mapping of one query: corpus id → score. -/
abbrev Inner := List (String × ℚ)

/-- The final results: query id → (corpus id → score). -/
abbrev Results := List (String × Inner)

/-- One iteration of the inner merge loop (`search` lines 136-143) for table
row `row` and the query at position `qi` with id `query_id`: skip sentinel
rows, resolve the candidate's global corpus position, drop self-matches,
otherwise store the score under the resolved corpus id. -/
def mergeRow (corpus_ids : List String) (cs : Int) (qi : Nat) (query_id : String)
    (inner : Inner) (row : Row) : Except String Inner :=
  if row.batch_index = -1 then Except.ok inner
  else do
    let idx ← pyIndex row.indices (qi : Int)
    let sub := globalPosition idx row.batch_index cs
    let score ← pyIndex row.values (qi : Int)
    let corpus_id ← pyIndex corpus_ids sub
    if corpus_id ≠ query_id then Except.ok (upsert corpus_id score inner)
    else Except.ok inner

/-- `self.results = {qid: {} for qid in query_ids}`: every query id gets an
empty inner mapping (Python dict comprehension keeps first occurrence order
and deduplicates keys). -/
def initResults (query_ids : List String) : Results :=
  query_ids.foldl (fun m qid =>
    if m.any (fun p => decide (p.1 = qid)) then m else m ++ [(qid, [])]) []

/-- Look up a query's inner mapping in the results. -/
def getEntry (res : Results) (qid : String) : Inner :=
  ((res.find? (fun p => decide (p.1 = qid))).map Prod.snd).getD []

/-- Replace a query's inner mapping in the results. -/
def setEntry (res : Results) (qid : String) (inner : Inner) : Results :=
  res.map (fun p => if p.1 = qid then (qid, inner) else p)

/-- The merge/format stage (`search` lines 130-145): for each query position,
fold every collected table row into that query's inner mapping. -/
def formatResults (query_ids corpus_ids : List String) (table : List Row)
    (cs : Int) : Except String Results :=
  query_ids.enum.foldlM (fun res p => do
      let inner ← table.foldlM (mergeRow corpus_ids cs p.1 p.2) (getEntry res p.2)
      pure (setEntry res p.2 inner))
    (initResults query_ids)

/-- The coordinator state we track: the stored `corpus_chunk_size` (possibly
unset), the number of target devices, and the corpus-sorting flag. -/
structure DRPES where
  corpus_chunk_size : Option Int
  numDevices : Nat
  sort_corpus : Bool
deriving DecidableEq

/-- `search` lines 77-78: if `corpus_chunk_size` is unset derive it as
`min(ceil(len(corpus) / len(target_devices) / 10), 5000)` (the ceiling of an
exact division, written with the usual `(a + b - 1) / b` form), then clamp the
stored or derived value to `len(corpus) - 1`. -/
def usedCs (st : DRPES) (corpusLen : Nat) : Int :=
  let base : Int := match st.corpus_chunk_size with
    | none =>
      min (((corpusLen + 10 * st.numDevices - 1) / (10 * st.numDevices) : Nat) : Int) 5000
    | some c => c
  min base ((corpusLen : Int) - 1)

/-- The chunk-size derivation exactly as the spec words it, for the refinement
theorem: `min(ceil(corpus_size / num_workers / 10), 5000)`, then clamp to
`corpus_size - 1`, with a true rational ceiling. -/
def specDerivedChunkSize (corpusLen numDevices : Nat) : Int :=
  min (min ⌈(corpusLen : ℚ) / (numDevices : ℚ) / 10⌉ 5000) ((corpusLen : Int) - 1)

/-- `corpus.sort('len', reverse=True)` guarded by `self.sort_corpus`: the
stream order in which chunks are cut and corpus ids are resolved. -/
def streamCorpus (st : DRPES) (corpus : List Item) : List Item :=
  if st.sort_corpus then sortCorpus corpus else corpus

/-- The Python `raise ValueError(...)` message of `search` line 75. -/
def scoreFnErrMsg (sf : String) : String :=
  "score function: " ++ sf ++
    " must be either (cos_sim) for cosine similarity or (dot) for dot product"

/-- `search` after validation, given the chunk size `cs` computed by lines
77-78: store `cs` on the object, sort the corpus, check `DataLoader`'s
batch-size positivity, encode queries (identity on stored vectors; batching
then concatenation preserves the list), run all chunks through the worker,
and merge.  The single value `cs` is used both to cut the corpus into chunks
and as the merge stage's `self.corpus_chunk_size`. -/
def searchCore (st : DRPES) (cs : Int) (corpus queries : List Item) (top_k : Nat)
    (score_function : String) : Except String (DRPES × Results) := do
  let st' : DRPES := { st with corpus_chunk_size := some cs }
  let corpus' := streamCorpus st corpus
  if cs ≤ 0 then
    Except.error "ValueError: batch_size should be a positive integer value"
  else
    let queryEmb := queries.map Item.vec
    let table ← searchTable st.numDevices cs.toNat queryEmb corpus' top_k score_function
    let res ← formatResults (queries.map Item.id) (corpus'.map Item.id) table cs
    pure (st', res)

/-- `DenseRetrievalParallelExactSearch.search`: validate the score-function
name first (lines 74-75), then run the pipeline with the normalized chunk
size. -/
def search (st : DRPES) (corpus queries : List Item) (top_k : Nat)
    (score_function : String) : Except String (DRPES × Results) :=
  if score_function = "cos_sim" ∨ score_function = "dot" then
    searchCore st (usedCs st corpus.length) corpus queries top_k score_function
  else Except.error (scoreFnErrMsg score_function)

/-- The results of a finished job (empty for a raised exception). -/
def resultsOf (r : Except String (DRPES × Results)) : Results :=
  match r with
  | .ok p => p.2
  | .error _ => []

/-- The inner mapping a finished job assigns to query id `qid`. -/
def innerOf (r : Except String (DRPES × Results)) (qid : String) : Inner :=
  getEntry (resultsOf r) qid

/-- The exception message a job raised, if any. -/
def errorOf (r : Except String (DRPES × Results)) : Option String :=
  match r with
  | .error e => some e
  | .ok _ => none

instance {ε α : Type} [DecidableEq ε] [DecidableEq α] : DecidableEq (Except ε α) := fun a b =>
  match a, b with
  | .error e1, .error e2 =>
    if h : e1 = e2 then isTrue (by rw [h]) else isFalse (by intro hc; cases hc; exact h rfl)
  | .ok a1, .ok a2 =>
    if h : a1 = a2 then isTrue (by rw [h]) else isFalse (by intro hc; cases hc; exact h rfl)
  | .error _, .ok _ => isFalse (by intro hc; cases hc)
  | .ok _, .error _ => isFalse (by intro hc; cases hc)

/-! Concrete fixtures for witnesses and counterexamples.  Texts have strictly
decreasing lengths, so the length sort keeps the listed order. -/

/-- Corpus item at stream position 0: unit vector along axis 0. -/
def exD0 : Item := { id := "d0", text := "aaa", vec := [1, 0] }

/-- Corpus item at stream position 1: unit vector along axis 1. -/
def exD1 : Item := { id := "d1", text := "aa", vec := [0, 1] }

/-- Corpus item at stream position 2 (alone in the final chunk). -/
def exD2 : Item := { id := "d2", text := "a", vec := [1, 1] }

/-- Zero-vector variant of the position-2 corpus item (NaN under cosine). -/
def exD2zero : Item := { id := "d2", text := "a", vec := [0, 0] }

/-- Query 0. -/
def exQ0 : Item := { id := "q0", text := "x", vec := [1, 0] }

/-- Query 1. -/
def exQ1 : Item := { id := "q1", text := "y", vec := [0, 1] }

/-- A coordinator constructed with an explicit `corpus_chunk_size=5` and one
target device. -/
def exSt : DRPES := { corpus_chunk_size := some 5, numDevices := 1, sort_corpus := true }

/-- A coordinator with `corpus_chunk_size` unset and one target device. -/
def exStNone : DRPES := { corpus_chunk_size := none, numDevices := 1, sort_corpus := true }

/-- The condition under which a table row can be merged for query position
`qi` without an `IndexError`: it is a sentinel, or its per-query sequences
cover `qi` and its candidate resolves to a position inside the corpus id
list. -/
def RowMergeable (cids : List String) (cs : Int) (qi : Nat) (r : Row) : Prop :=
  r.batch_index = -1 ∨
    (qi < r.indices.length ∧ qi < r.values.length
      ∧ 0 ≤ globalPosition (r.indices.getD qi 0) r.batch_index cs
      ∧ (globalPosition (r.indices.getD qi 0) r.batch_index cs).toNat < cids.length)

/-! ### Basic facts about `Except` binds and monadic folds -/

theorem except_bind_ok {α β : Type} (a : α) (f : α → Except String β) :
    (Except.ok a >>= f) = f a := rfl

theorem except_bind_err {α β : Type} (e : String) (f : α → Except String β) :
    ((Except.error e : Except String α) >>= f) = Except.error e := rfl

theorem foldlM_ext {σ α : Type} (f g : σ → α → Except String σ)
    (h : ∀ s a, f s a = g s a) (l : List α) (s : σ) :
    l.foldlM f s = l.foldlM g s := by
  induction l generalizing s with
  | nil => rfl
  | cons a l ih =>
    simp only [List.foldlM_cons, h]
    cases hg : g s a with
    | error e => rfl
    | ok s2 => simp [except_bind_ok, ih]

theorem foldlM_error_pred {σ α : Type} (f : σ → α → Except String σ)
    (P : String → Prop) (hf : ∀ s a e, f s a = .error e → P e) (l : List α) :
    ∀ s e, l.foldlM f s = .error e → P e := by
  induction l with
  | nil => intro s e h; simp [List.foldlM_nil, pure, Except.pure] at h
  | cons a l ih =>
    intro s e h
    rw [List.foldlM_cons] at h
    cases hfa : f s a with
    | error e2 =>
      rw [hfa, except_bind_err] at h
      cases h
      exact hf s a _ hfa
    | ok s2 =>
      rw [hfa, except_bind_ok] at h
      exact ih s2 e h

theorem foldlM_inv {σ α : Type} (f : σ → α → Except String σ) (P : σ → Prop)
    (hstep : ∀ s a s2, P s → f s a = .ok s2 → P s2) :
    ∀ (l : List α) (s final : σ), P s → l.foldlM f s = .ok final → P final := by
  intro l
  induction l with
  | nil =>
    intro s final hP h
    simp only [List.foldlM_nil] at h
    cases h
    exact hP
  | cons a l ih =>
    intro s final hP h
    rw [List.foldlM_cons] at h
    cases hfa : f s a with
    | error e => rw [hfa, except_bind_err] at h; cases h
    | ok s2 =>
      rw [hfa, except_bind_ok] at h
      exact ih s2 final (hstep s a s2 hP hfa) h

theorem foldlM_append_ok {σ α : Type} (f : σ → α → Except String σ)
    (l1 l2 : List α) (s final : σ) (h : (l1 ++ l2).foldlM f s = .ok final) :
    ∃ mid, l1.foldlM f s = .ok mid ∧ l2.foldlM f mid = .ok final := by
  rw [List.foldlM_append] at h
  cases h1 : l1.foldlM f s with
  | error e => rw [h1, except_bind_err] at h; cases h
  | ok mid =>
    rw [h1, except_bind_ok] at h
    exact ⟨mid, rfl, h⟩

theorem foldlM_cons_ok {σ α : Type} (f : σ → α → Except String σ)
    (a : α) (l : List α) (s final : σ) (h : (a :: l).foldlM f s = .ok final) :
    ∃ mid, f s a = .ok mid ∧ l.foldlM f mid = .ok final := by
  rw [List.foldlM_cons] at h
  cases h1 : f s a with
  | error e => rw [h1, except_bind_err] at h; cases h
  | ok mid =>
    rw [h1, except_bind_ok] at h
    exact ⟨mid, rfl, h⟩

/-! ### Shapes: `transposeK` access -/

theorem transposeK_length {α : Type} (k : Nat) (m : List (List α)) (d : α) :
    (transposeK k m d).length = k := by simp [transposeK]

theorem transposeK_getElem {α : Type} (k : Nat) (m : List (List α)) (d : α)
    (j : Nat) (hj : j < (transposeK k m d).length) :
    (transposeK k m d)[j] = m.map (fun r => r.getD j d) := by
  simp [transposeK] at hj ⊢

theorem transposeK_getD {α : Type} (k : Nat) (m : List (List α)) (d : α)
    (j : Nat) (hj : j < k) :
    (transposeK k m d).getD j [] = m.map (fun r => r.getD j d) := by
  rw [List.getD_eq_getElem _ _ (by rw [transposeK_length]; exact hj)]
  exact transposeK_getElem _ _ _ _ _

theorem getD_map {α β : Type} (f : α → β) (l : List α) (i : Nat) (d : β)
    (hi : i < l.length) : (l.map f).getD i d = f l[i] := by
  rw [List.getD_eq_getElem _ _ (by simpa using hi), List.getElem_map]

theorem transposeK_mem {α : Type} (k : Nat) (m : List (List α)) (d : α)
    (x : List α) (hx : x ∈ transposeK k m d) : x.length = m.length := by
  rw [transposeK] at hx
  rcases List.mem_map.mp hx with ⟨j, _, hj⟩
  subst hj
  simp

/-! ### Properties of `chunkList` -/

theorem chunkList_length_mul {α : Type} (cs : Nat) (hcs : 0 < cs) :
    ∀ (l : List α) (i : Nat), i < (chunkList cs l).length → cs * i < l.length := by
  intro l
  induction l using chunkList.induct cs with
  | case1 => intro i hi; simp [chunkList] at hi
  | case2 a l hz =>
    exact absurd hz (by omega)
  | case3 a l hne ih =>
    intro i hi
    rw [chunkList, dif_neg hne] at hi
    cases i with
    | zero => simp
    | succ i =>
      simp only [List.length_cons, Nat.add_lt_add_iff_right] at hi
      have := ih i hi
      rw [List.length_drop] at this
      have : cs * i + cs < (a :: l).length := by
        simp only [List.length_cons] at this ⊢
        omega
      calc cs * (i + 1) = cs * i + cs := by ring
        _ < (a :: l).length := this

theorem chunkList_getD {α : Type} (cs : Nat) (hcs : 0 < cs) :
    ∀ (l : List α) (i : Nat), i < (chunkList cs l).length →
      (chunkList cs l).getD i [] = (l.drop (cs * i)).take cs := by
  intro l
  induction l using chunkList.induct cs with
  | case1 => intro i hi; simp [chunkList] at hi
  | case2 a l hz =>
    exact absurd hz (by omega)
  | case3 a l hne ih =>
    intro i hi
    rw [chunkList, dif_neg hne] at hi ⊢
    cases i with
    | zero => simp
    | succ i =>
      simp only [List.length_cons, Nat.add_lt_add_iff_right] at hi
      simp only [List.getD_cons_succ]
      rw [ih i hi, List.drop_drop]
      congr 2
      ring

/-! ### Properties of `workerRows` and `accumRows` independent of shape -/

theorem workerRows_length_le (raw : List (List (Option ℚ))) (top_k : Nat)
    (b : Int) (rws : List Row) (h : workerRows raw top_k b = .ok rws) :
    rws.length ≤ top_k + 1 := by
  by_cases hc : (raw.map (fun r => r.map replaceNaN)).length < 2
  · simp only [workerRows, if_pos hc] at h
    cases h
  · simp only [workerRows, if_neg hc] at h
    cases h
    simp only [List.length_map, List.length_zip, transposeK_length]
    omega

theorem workerRows_batch (raw : List (List (Option ℚ))) (top_k : Nat)
    (b : Int) (rws : List Row) (h : workerRows raw top_k b = .ok rws) :
    ∀ r ∈ rws, r.batch_index = b := by
  by_cases hc : (raw.map (fun r => r.map replaceNaN)).length < 2
  · simp only [workerRows, if_pos hc] at h
    cases h
  · simp only [workerRows, if_neg hc] at h
    cases h
    intro r hr
    rcases List.mem_map.mp hr with ⟨p, _, hpr⟩
    subst hpr
    rfl

theorem accumRows_spec (top_k : Nat) :
    ∀ (items : List (Int × List (List (Option ℚ)))) (acc : List Row),
      (∀ p ∈ items, ∃ rws, workerRows p.2 top_k p.1 = .ok rws) →
      ∃ extra,
        (items.foldlM (fun acc p => do
            let r ← workerRows p.2 top_k p.1
            pure (acc ++ r)) acc) = .ok (acc ++ extra)
        ∧ (∀ r ∈ extra, ∃ p ∈ items, ∃ rws,
            workerRows p.2 top_k p.1 = .ok rws ∧ r ∈ rws)
        ∧ extra.length ≤ items.length * (top_k + 1) := by
  intro items
  induction items with
  | nil =>
    intro acc _
    exact ⟨[], by simp only [List.foldlM_nil, List.append_nil]; rfl, by simp, by simp⟩
  | cons p items ih =>
    intro acc hall
    rcases hall p (List.mem_cons_self _ _) with ⟨rws, hrws⟩
    rcases ih (acc ++ rws) (fun q hq => hall q (List.mem_cons_of_mem _ hq)) with
      ⟨extra, hfold, hmem, hlen⟩
    refine ⟨rws ++ extra, ?_, ?_, ?_⟩
    · rw [List.foldlM_cons]
      have hstep : (do
          let r ← workerRows p.2 top_k p.1
          pure (acc ++ r) : Except String (List Row)) = .ok (acc ++ rws) := by
        rw [hrws, except_bind_ok]
        rfl
      rw [hstep, except_bind_ok]
      rw [← List.append_assoc]
      exact hfold
    · intro r hr
      rcases List.mem_append.mp hr with hr | hr
      · exact ⟨p, List.mem_cons_self _ _, rws, hrws, hr⟩
      · rcases hmem r hr with ⟨q, hq, rws2, h1, h2⟩
        exact ⟨q, List.mem_cons_of_mem _ hq, rws2, h1, h2⟩
    · have := workerRows_length_le _ _ _ _ hrws
      simp only [List.length_append, List.length_cons]
      calc rws.length + extra.length ≤ (top_k + 1) + items.length * (top_k + 1) := by omega
        _ = (items.length + 1) * (top_k + 1) := by ring

/-! ### Properties of `topkSelect` -/

theorem topkSelect_length (k : Nat) (row : List ℚ) :
    (topkSelect k row).length = min k row.length := by
  simp [topkSelect, List.length_take, List.length_mergeSort]

theorem topkSelect_mem (k : Nat) (row : List ℚ) (p : ℚ × Nat)
    (hp : p ∈ topkSelect k row) :
    p.2 < row.length ∧ row.getD p.2 0 = p.1 := by
  have h1 : p ∈ (row.enum.map (fun q => (q.2, q.1))).mergeSort
      (fun a b => decide (b.1 ≤ a.1)) := List.mem_of_mem_take hp
  have h2 : p ∈ row.enum.map (fun q => (q.2, q.1)) :=
    (List.mergeSort_perm _ _).mem_iff.mp h1
  rcases List.mem_map.mp h2 with ⟨q, hq, hqp⟩
  rcases List.mem_enum hq with ⟨hlt, hval⟩
  subst hqp
  exact ⟨hlt, by rw [List.getD_eq_getElem _ _ hlt]; exact hval.symm⟩

theorem topkSelect_sorted (k : Nat) (row : List ℚ) :
    List.Pairwise (fun a b => (b.1 : ℚ) ≤ a.1)
      ((row.enum.map (fun q => (q.2, q.1))).mergeSort
        (fun a b => decide (b.1 ≤ a.1))) := by
  have h := @List.sorted_mergeSort (ℚ × Nat) (fun a b => decide (b.1 ≤ a.1))
    (fun a b c hab hbc => by
      simp only [decide_eq_true_eq] at *
      exact le_trans hbc hab)
    (fun a b => by
      simp only [Bool.or_eq_true, decide_eq_true_eq]
      exact le_total b.1 a.1)
    (row.enum.map (fun q => (q.2, q.1)))
  exact h.imp (fun hab => by simpa using hab)

theorem topkSelect_dominates (k : Nat) (row : List ℚ) (p : ℚ × Nat)
    (hp : p ∈ topkSelect k row) (i : Nat) (hi : i < row.length)
    (hnot : i ∉ (topkSelect k row).map Prod.snd) :
    row.getD i 0 ≤ p.1 := by
  set sorted := (row.enum.map (fun q => (q.2, q.1))).mergeSort
    (fun a b => decide (b.1 ≤ a.1)) with hsorted
  have hpair : (row.getD i 0, i) ∈ sorted := by
    rw [hsorted, (List.mergeSort_perm _ _).mem_iff]
    refine List.mem_map.mpr ⟨(i, row.getD i 0), ?_, rfl⟩
    rw [List.getD_eq_getElem _ _ hi]
    exact List.mem_enum_iff_getElem?.mpr (by simp [hi, List.getElem?_eq_getElem])
  have hsplit : sorted = sorted.take k ++ sorted.drop k := (List.take_append_drop _ _).symm
  have hpw : List.Pairwise (fun a b => (b.1 : ℚ) ≤ a.1) (sorted.take k ++ sorted.drop k) := by
    rw [← hsplit]; exact topkSelect_sorted k row
  rw [List.pairwise_append] at hpw
  have hmem : (row.getD i 0, i) ∈ sorted.take k ∨ (row.getD i 0, i) ∈ sorted.drop k := by
    rw [hsplit] at hpair; exact List.mem_append.mp hpair
  rcases hmem with hmem | hmem
  · exfalso
    exact hnot (List.mem_map.mpr ⟨(row.getD i 0, i), hmem, rfl⟩)
  · exact hpw.2.2 p hp (row.getD i 0, i) hmem

theorem topkSelect_nodup_idx (k : Nat) (row : List ℚ) :
    ((topkSelect k row).map Prod.snd).Nodup := by
  have h1 : ((row.enum.map (fun q => (q.2, q.1))).map Prod.snd).Nodup := by
    have : (row.enum.map (fun q => (q.2, q.1))).map Prod.snd = row.enum.map Prod.fst := by
      rw [List.map_map]; rfl
    rw [this, List.enum_map_fst]
    exact List.nodup_range _
  have h2 : (((row.enum.map (fun q => (q.2, q.1))).mergeSort
      (fun a b => decide (b.1 ≤ a.1))).map Prod.snd).Nodup := by
    refine (List.Perm.nodup_iff ?_).mpr h1
    exact (List.mergeSort_perm _ _).map Prod.snd
  have h3 : (topkSelect k row).map Prod.snd
      = (((row.enum.map (fun q => (q.2, q.1))).mergeSort
          (fun a b => decide (b.1 ≤ a.1))).map Prod.snd).take k := by
    simp [topkSelect, List.map_take]
  rw [h3]
  exact h2.sublist (List.take_sublist _ _)

/-! ### Shape of the worker's emitted rows -/

theorem workerRows_spec (raw : List (List (Option ℚ))) (top_k : Nat) (b : Int)
    (nc : Nat) (h2 : 2 ≤ raw.length) (hrect : ∀ r ∈ raw, r.length = nc) :
    ∃ rows, workerRows raw top_k b = .ok rows
      ∧ rows.length = min (top_k + 1) nc
      ∧ (∀ r ∈ rows, r.batch_index = b
          ∧ r.values.length = raw.length ∧ r.indices.length = raw.length)
      ∧ (∀ j qi, j < min (top_k + 1) nc → qi < raw.length →
          (rows.getD j sentinelRow).values.getD qi 0
              = ((topkSelect (min (top_k + 1) nc)
                  ((raw.getD qi []).map replaceNaN)).getD j (0, 0)).1
            ∧ (rows.getD j sentinelRow).indices.getD qi 0
              = (((topkSelect (min (top_k + 1) nc)
                  ((raw.getD qi []).map replaceNaN)).getD j (0, 0)).2 : Int)) := by
  have hlen : (raw.map (fun r => r.map replaceNaN)).length = raw.length := by simp
  have hnotlt : ¬ (raw.map (fun r => r.map replaceNaN)).length < 2 := by omega
  have h1lt : 1 < (raw.map (fun r => r.map replaceNaN)).length := by omega
  have hrow1 : ((raw.map (fun r => r.map replaceNaN)).getD 1 []).length = nc := by
    rw [List.getD_eq_getElem _ _ h1lt]
    simp only [List.getElem_map, List.length_map]
    exact hrect _ (List.getElem_mem (by omega))
  set K := min (top_k + 1) nc with hK
  set SEL := (raw.map (fun r => r.map replaceNaN)).map (fun r => topkSelect K r) with hSEL
  have heq : workerRows raw top_k b = Except.ok
      (((transposeK K (SEL.map (fun s => s.map Prod.fst)) 0).zip
        (transposeK K (SEL.map (fun s => s.map Prod.snd)) 0)).map
        (fun p => { values := p.1, indices := p.2.map Int.ofNat, batch_index := b })) := by
    simp only [workerRows]
    rw [if_neg hnotlt, hrow1]
  refine ⟨_, heq, ?_, ?_, ?_⟩
  · simp [List.length_zip, transposeK_length]
  · intro r hr
    rcases List.mem_map.mp hr with ⟨p, hp, hpr⟩
    have hmem := List.of_mem_zip hp
    subst hpr
    refine ⟨rfl, ?_, ?_⟩
    · have := transposeK_mem _ _ _ _ hmem.1
      simpa [SEL] using this
    · have := transposeK_mem _ _ _ _ hmem.2
      simpa [SEL] using this
  · intro j qi hj hqi
    have hzl : (((transposeK K (SEL.map (fun s => s.map Prod.fst)) 0).zip
        (transposeK K (SEL.map (fun s => s.map Prod.snd)) 0))).length = K := by
      simp [List.length_zip, transposeK_length]
    have hrowj : (((transposeK K (SEL.map (fun s => s.map Prod.fst)) 0).zip
          (transposeK K (SEL.map (fun s => s.map Prod.snd)) 0)).map
          (fun p => ({ values := p.1, indices := p.2.map Int.ofNat, batch_index := b } : Row))).getD j sentinelRow
        = ({ values := (transposeK K (SEL.map (fun s => s.map Prod.fst)) 0).getD j [], indices := ((transposeK K (SEL.map (fun s => s.map Prod.snd)) 0).getD j []).map Int.ofNat, batch_index := b } : Row) := by
      rw [getD_map _ _ _ _ (by rw [hzl]; exact hj)]
      rw [List.getElem_zip]
      rw [List.getD_eq_getElem _ _ (by rw [transposeK_length]; exact hj)]
      rw [List.getD_eq_getElem _ _ (by rw [transposeK_length]; exact hj)]
    rw [heq] at *
    have hselqi : qi < SEL.length := by simp only [SEL, List.length_map]; omega
    have hSELqi : SEL[qi] = topkSelect K ((raw.getD qi []).map replaceNaN) := by
      simp only [SEL, List.getElem_map]
      rw [List.getD_eq_getElem _ _ hqi]
    have hsellen : (SEL[qi]).length = K := by
      rw [hSELqi, topkSelect_length, List.length_map,
        List.getD_eq_getElem _ _ hqi, hrect _ (List.getElem_mem hqi)]
      omega
    have hjsel : j < (SEL[qi]).length := by rw [hsellen]; exact hj
    constructor
    · rw [hrowj]
      show ((transposeK K (SEL.map (fun s => s.map Prod.fst)) 0).getD j []).getD qi 0 = _
      rw [← hSELqi]
      rw [transposeK_getD _ _ _ _ hj]
      rw [getD_map _ _ _ _ (by simpa [SEL, List.length_map] using hselqi)]
      simp only [List.getElem_map]
      rw [getD_map _ _ _ _ hjsel]
      rw [List.getD_eq_getElem _ _ hjsel]
    · rw [hrowj]
      show (((transposeK K (SEL.map (fun s => s.map Prod.snd)) 0).getD j []).map Int.ofNat).getD qi 0 = _
      rw [← hSELqi]
      rw [transposeK_getD _ _ _ _ hj]
      rw [List.map_map]
      rw [getD_map _ _ _ _ (by simpa [SEL, List.length_map] using hselqi)]
      simp only [List.getElem_map, Function.comp_apply]
      rw [getD_map _ _ _ _ hjsel]
      rw [List.getD_eq_getElem _ _ hjsel]
      rfl

theorem topkSelect_above (k : Nat) (row : List ℚ) (c : ℚ)
    (hcount : k ≤ row.countP (fun v => decide (c < v))) (p : ℚ × Nat)
    (hp : p ∈ topkSelect k row) : c < p.1 := by
  by_contra hle
  push_neg at hle
  set sorted := (row.enum.map (fun q => (q.2, q.1))).mergeSort
    (fun a b => decide (b.1 ≤ a.1)) with hsorted
  have hcnt : sorted.countP (fun q => decide (c < q.1))
      = row.countP (fun v => decide (c < v)) := by
    rw [hsorted]
    rw [List.Perm.countP_eq _ (List.mergeSort_perm _ _)]
    rw [List.countP_map]
    have : row.enum.map Prod.snd = row := List.enum_map_snd row
    calc row.enum.countP ((fun q => decide (c < q.1)) ∘ (fun q => (q.2, q.1)))
        = row.enum.countP ((fun v => decide (c < v)) ∘ Prod.snd) := by
          apply List.countP_congr; intro a _; rfl
      _ = (row.enum.map Prod.snd).countP (fun v => decide (c < v)) :=
          (List.countP_map _ _ _).symm
      _ = row.countP (fun v => decide (c < v)) := by rw [this]
  have hsplit : sorted = sorted.take k ++ sorted.drop k := (List.take_append_drop _ _).symm
  have hpw : List.Pairwise (fun a b => (b.1 : ℚ) ≤ a.1) (sorted.take k ++ sorted.drop k) := by
    rw [← hsplit]; exact topkSelect_sorted k row
  rw [List.pairwise_append] at hpw
  have hdrop : (sorted.drop k).countP (fun q => decide (c < q.1)) = 0 := by
    rw [List.countP_eq_zero]
    intro q hq
    simp only [decide_eq_true_eq, not_lt]
    exact le_trans (hpw.2.2 p hp q hq) hle
  have htake : (sorted.take k).countP (fun q => decide (c < q.1))
      < (sorted.take k).length := by
    rcases lt_or_eq_of_le (List.countP_le_length (l := sorted.take k)
        (p := fun q => decide (c < q.1))) with h | h
    · exact h
    · exfalso
      have := (List.countP_eq_length).mp h p hp
      simp only [decide_eq_true_eq] at this
      exact absurd this (not_lt.mpr hle)
  have hlen : (sorted.take k).length ≤ k := by
    simp [List.length_take]
  have : sorted.countP (fun q => decide (c < q.1))
      = (sorted.take k).countP (fun q => decide (c < q.1))
        + (sorted.drop k).countP (fun q => decide (c < q.1)) := by
    rw [hsplit, List.countP_append]
    simp [← hsplit]
  omega

/-! ### Properties of `upsert` -/

theorem upsert_mem (k : String) (v : ℚ) :
    ∀ (m : Inner) (p : String × ℚ), p ∈ upsert k v m → p = (k, v) ∨ p ∈ m := by
  intro m
  induction m with
  | nil =>
    intro p hp
    simp only [upsert, List.mem_singleton] at hp
    exact Or.inl hp
  | cons q m ih =>
    intro p hp
    obtain ⟨k0, v0⟩ := q
    simp only [upsert] at hp
    by_cases hk : k0 = k
    · rw [if_pos hk] at hp
      rcases List.mem_cons.mp hp with h | h
      · exact Or.inl h
      · exact Or.inr (List.mem_cons_of_mem _ h)
    · rw [if_neg hk] at hp
      rcases List.mem_cons.mp hp with h | h
      · exact Or.inr (h ▸ List.mem_cons_self _ _)
      · rcases ih p h with h2 | h2
        · exact Or.inl h2
        · exact Or.inr (List.mem_cons_of_mem _ h2)

theorem upsert_keys (k : String) (v : ℚ) :
    ∀ (m : Inner), (upsert k v m).map Prod.fst
      = if k ∈ m.map Prod.fst then m.map Prod.fst else m.map Prod.fst ++ [k] := by
  intro m
  induction m with
  | nil => simp [upsert]
  | cons q m ih =>
    obtain ⟨k0, v0⟩ := q
    simp only [upsert]
    by_cases hk : k0 = k
    · subst hk
      rw [if_pos rfl]
      simp
    · rw [if_neg hk, List.map_cons, ih, List.map_cons]
      by_cases hmem : k ∈ m.map Prod.fst
      · rw [if_pos hmem, if_pos (by simp [hmem])]
      · rw [if_neg hmem, if_neg (by simp [hmem, Ne.symm hk]), List.cons_append]

theorem upsert_length (k : String) (v : ℚ) (m : Inner) :
    (upsert k v m).length ≤ m.length + 1 := by
  have h1 : (upsert k v m).length = ((upsert k v m).map Prod.fst).length := by
    rw [List.length_map]
  rw [h1, upsert_keys]
  by_cases hmem : k ∈ m.map Prod.fst
  · rw [if_pos hmem]; simp
  · rw [if_neg hmem]; simp

theorem upsert_key_mem (k : String) (v : ℚ) (m : Inner) :
    k ∈ (upsert k v m).map Prod.fst := by
  rw [upsert_keys]
  by_cases hmem : k ∈ m.map Prod.fst
  · rw [if_pos hmem]; exact hmem
  · rw [if_neg hmem]; simp

theorem upsert_keys_mono (k : String) (v : ℚ) (m : Inner) (c : String)
    (hc : c ∈ m.map Prod.fst) : c ∈ (upsert k v m).map Prod.fst := by
  rw [upsert_keys]
  by_cases hmem : k ∈ m.map Prod.fst
  · rw [if_pos hmem]; exact hc
  · rw [if_neg hmem]; exact List.mem_append_left _ hc

/-! ### Properties of `pyIndex` and `mergeRow` -/

theorem pyIndex_int {α : Type} (l : List α) (i : Int) (h0 : 0 ≤ i)
    (hi : i.toNat < l.length) : pyIndex l i = .ok l[i.toNat] := by
  have hneg : ¬(i < 0) := by omega
  simp only [pyIndex, if_neg hneg, dif_pos (And.intro h0 hi)]
  rfl

theorem pyIndex_natCast {α : Type} (l : List α) (i : Nat) (hi : i < l.length) :
    pyIndex l (i : Int) = .ok l[i] :=
  pyIndex_int l (i : Int) (by omega) (by simpa using hi)

theorem mergeRow_sentinel (cids : List String) (cs : Int) (qi : Nat)
    (qid : String) (inner : Inner) (row : Row) (h : row.batch_index = -1) :
    mergeRow cids cs qi qid inner row = .ok inner := by
  simp [mergeRow, h]

theorem mergeRow_eval (cids : List String) (cs : Int) (qi : Nat) (qid : String)
    (inner : Inner) (row : Row) (idx : Int) (score : ℚ) (cid : String)
    (hb : ¬ row.batch_index = -1)
    (h1 : pyIndex row.indices (qi : Int) = .ok idx)
    (h2 : pyIndex row.values (qi : Int) = .ok score)
    (h3 : pyIndex cids (globalPosition idx row.batch_index cs) = .ok cid) :
    mergeRow cids cs qi qid inner row
      = if cid ≠ qid then .ok (upsert cid score inner) else .ok inner := by
  simp only [mergeRow, if_neg hb, h1, except_bind_ok, h2, h3]

theorem mergeRow_ok_cases (cids : List String) (cs : Int) (qi : Nat)
    (qid : String) (inner : Inner) (row : Row) (out : Inner)
    (h : mergeRow cids cs qi qid inner row = .ok out) :
    out = inner ∨ ∃ (idx : Int) (score : ℚ) (cid : String),
      pyIndex row.indices (qi : Int) = .ok idx
      ∧ pyIndex row.values (qi : Int) = .ok score
      ∧ pyIndex cids (globalPosition idx row.batch_index cs) = .ok cid
      ∧ cid ≠ qid ∧ out = upsert cid score inner := by
  by_cases hb : row.batch_index = -1
  · rw [mergeRow_sentinel _ _ _ _ _ _ hb] at h
    cases h
    exact Or.inl rfl
  · simp only [mergeRow, if_neg hb] at h
    cases h1 : pyIndex row.indices (qi : Int) with
    | error e => rw [h1, except_bind_err] at h; cases h
    | ok idx =>
      rw [h1, except_bind_ok] at h
      cases h2 : pyIndex row.values (qi : Int) with
      | error e => rw [h2, except_bind_err] at h; cases h
      | ok score =>
        rw [h2, except_bind_ok] at h
        cases h3 : pyIndex cids (globalPosition idx row.batch_index cs) with
        | error e => rw [h3, except_bind_err] at h; cases h
        | ok cid =>
          rw [h3, except_bind_ok] at h
          by_cases hcid : cid = qid
          · rw [if_neg (by simp [hcid])] at h
            cases h
            exact Or.inl rfl
          · rw [if_pos hcid] at h
            cases h
            exact Or.inr ⟨idx, score, cid, rfl, rfl, h3, hcid, rfl⟩

/-! ### Merge-fold invariants -/

theorem mergeFold_no_self (cids : List String) (cs : Int) (qi : Nat) (qid : String)
    (table : List Row) (inner out : Inner)
    (hinv : ∀ p ∈ inner, p.1 ≠ qid)
    (h : table.foldlM (mergeRow cids cs qi qid) inner = .ok out) :
    ∀ p ∈ out, p.1 ≠ qid := by
  refine foldlM_inv (mergeRow cids cs qi qid) (fun s => ∀ p ∈ s, p.1 ≠ qid)
    ?_ table inner out hinv h
  intro s r s2 hP hstep
  rcases mergeRow_ok_cases _ _ _ _ _ _ _ hstep with h1 | ⟨idx, score, cid, _, _, _, hcid, hout⟩
  · exact h1 ▸ hP
  · subst hout
    intro p hp
    rcases upsert_mem _ _ _ _ hp with h2 | h2
    · rw [h2]; exact hcid
    · exact hP p h2

theorem mergeFold_keys_mono (cids : List String) (cs : Int) (qi : Nat)
    (qid : String) (table : List Row) (inner out : Inner) (c : String)
    (hc : c ∈ inner.map Prod.fst)
    (h : table.foldlM (mergeRow cids cs qi qid) inner = .ok out) :
    c ∈ out.map Prod.fst := by
  refine foldlM_inv (mergeRow cids cs qi qid) (fun s => c ∈ s.map Prod.fst)
    ?_ table inner out hc h
  intro s r s2 hP hstep
  rcases mergeRow_ok_cases _ _ _ _ _ _ _ hstep with h1 | ⟨idx, score, cid, _, _, _, _, hout⟩
  · exact h1 ▸ hP
  · subst hout
    exact upsert_keys_mono _ _ _ _ hP

theorem mergeFold_length (cids : List String) (cs : Int) (qi : Nat) (qid : String) :
    ∀ (table : List Row) (inner out : Inner),
      table.foldlM (mergeRow cids cs qi qid) inner = .ok out →
      out.length ≤ inner.length
        + table.countP (fun r => decide (¬ r.batch_index = -1)) := by
  intro table
  induction table with
  | nil =>
    intro inner out h
    simp only [List.foldlM_nil] at h
    cases h
    simp
  | cons r table ih =>
    intro inner out h
    rcases foldlM_cons_ok _ _ _ _ _ h with ⟨mid, hstep, hrest⟩
    by_cases hb : r.batch_index = -1
    · rw [mergeRow_sentinel _ _ _ _ _ _ hb] at hstep
      cases hstep
      have := ih _ _ hrest
      rw [List.countP_cons_of_neg _ _ (by simp [hb])]
      exact this
    · have hmid : mid.length ≤ inner.length + 1 := by
        rcases mergeRow_ok_cases _ _ _ _ _ _ _ hstep with h1 | ⟨idx, score, cid, _, _, _, _, hout⟩
        · rw [h1]; omega
        · rw [hout]; exact upsert_length _ _ _
      have := ih _ _ hrest
      rw [List.countP_cons_of_pos _ _ (by simp [hb])]
      omega

theorem mergeFold_filter (cids : List String) (cs : Int) (qi : Nat) (qid : String) :
    ∀ (table : List Row) (inner : Inner),
      table.foldlM (mergeRow cids cs qi qid) inner
        = (table.filter (fun r => decide (¬ r.batch_index = -1))).foldlM
            (mergeRow cids cs qi qid) inner := by
  intro table
  induction table with
  | nil => intro inner; rfl
  | cons r table ih =>
    intro inner
    by_cases hb : r.batch_index = -1
    · rw [List.foldlM_cons, mergeRow_sentinel _ _ _ _ _ _ hb, except_bind_ok,
        List.filter_cons_of_neg (by simp [hb])]
      exact ih inner
    · rw [List.filter_cons_of_pos (by simp [hb]), List.foldlM_cons, List.foldlM_cons]
      cases hstep : mergeRow cids cs qi qid inner r with
      | error e => rw [except_bind_err, except_bind_err]
      | ok mid =>
        rw [except_bind_ok, except_bind_ok]
        exact ih mid

theorem mergeFold_ok (cids : List String) (cs : Int) (qi : Nat) (qid : String) :
    ∀ (table : List Row) (inner : Inner),
      (∀ r ∈ table, RowMergeable cids cs qi r) →
      ∃ out, table.foldlM (mergeRow cids cs qi qid) inner = .ok out := by
  intro table
  induction table with
  | nil => intro inner _; exact ⟨inner, rfl⟩
  | cons r table ih =>
    intro inner hwf
    have hstep : ∃ mid, mergeRow cids cs qi qid inner r = .ok mid := by
      by_cases hb : r.batch_index = -1
      · exact ⟨inner, mergeRow_sentinel _ _ _ _ _ _ hb⟩
      · rcases hwf r (List.mem_cons_self _ _) with hb2 | ⟨hi1, hi2, hpos, hlt⟩
        · exact absurd hb2 hb
        · have h1 : pyIndex r.indices (qi : Int) = .ok (r.indices.getD qi 0) := by
            rw [pyIndex_natCast _ _ hi1, List.getD_eq_getElem _ _ hi1]
          have h2 : pyIndex r.values (qi : Int) = .ok (r.values.getD qi 0) := by
            rw [pyIndex_natCast _ _ hi2, List.getD_eq_getElem _ _ hi2]
          have h3 : pyIndex cids (globalPosition (r.indices.getD qi 0) r.batch_index cs)
              = .ok cids[(globalPosition (r.indices.getD qi 0) r.batch_index cs).toNat] :=
            pyIndex_int _ _ hpos hlt
          rw [mergeRow_eval _ _ _ _ _ _ _ _ _ hb h1 h2 h3]
          by_cases hc : cids[(globalPosition (r.indices.getD qi 0) r.batch_index cs).toNat] ≠ qid
          · rw [if_pos hc]
            exact ⟨_, rfl⟩
          · rw [if_neg hc]
            exact ⟨inner, rfl⟩
    rcases hstep with ⟨mid, hstep⟩
    rcases ih mid (fun r2 hr2 => hwf r2 (List.mem_cons_of_mem _ hr2)) with ⟨out, hout⟩
    exact ⟨out, by rw [List.foldlM_cons, hstep, except_bind_ok]; exact hout⟩

theorem mergeFold_adds (cids : List String) (cs : Int) (qi : Nat) (qid : String)
    (t1 t2 : List Row) (r : Row) (inner out : Inner)
    (h : (t1 ++ r :: t2).foldlM (mergeRow cids cs qi qid) inner = .ok out)
    (hb : ¬ r.batch_index = -1)
    (hi1 : qi < r.indices.length) (hi2 : qi < r.values.length)
    (hpos : 0 ≤ globalPosition (r.indices.getD qi 0) r.batch_index cs)
    (hlt : (globalPosition (r.indices.getD qi 0) r.batch_index cs).toNat < cids.length)
    (hne : cids.getD (globalPosition (r.indices.getD qi 0) r.batch_index cs).toNat "" ≠ qid) :
    cids.getD (globalPosition (r.indices.getD qi 0) r.batch_index cs).toNat ""
      ∈ out.map Prod.fst := by
  rcases foldlM_append_ok _ _ _ _ _ h with ⟨mid1, hfold1, hrest⟩
  rcases foldlM_cons_ok _ _ _ _ _ hrest with ⟨mid2, hstep, hfold2⟩
  have h1 : pyIndex r.indices (qi : Int) = .ok (r.indices.getD qi 0) := by
    rw [pyIndex_natCast _ _ hi1, List.getD_eq_getElem _ _ hi1]
  have h2 : pyIndex r.values (qi : Int) = .ok (r.values.getD qi 0) := by
    rw [pyIndex_natCast _ _ hi2, List.getD_eq_getElem _ _ hi2]
  have hgetD : cids[(globalPosition (r.indices.getD qi 0) r.batch_index cs).toNat]
      = cids.getD (globalPosition (r.indices.getD qi 0) r.batch_index cs).toNat "" := by
    rw [List.getD_eq_getElem _ _ hlt]
  have h3 : pyIndex cids (globalPosition (r.indices.getD qi 0) r.batch_index cs)
      = .ok (cids.getD (globalPosition (r.indices.getD qi 0) r.batch_index cs).toNat "") := by
    rw [pyIndex_int _ _ hpos hlt, hgetD]
  rw [mergeRow_eval _ _ _ _ _ _ _ _ _ hb h1 h2 h3, if_pos hne] at hstep
  cases hstep
  exact mergeFold_keys_mono _ _ _ _ _ _ _ _ (upsert_key_mem _ _ _) hfold2

/-! ### The outer `formatResults` fold -/

theorem setEntry_keys (res : Results) (qid : String) (inner : Inner) :
    (setEntry res qid inner).map Prod.fst = res.map Prod.fst := by
  rw [setEntry, List.map_map]
  apply List.map_congr_left
  intro p _
  by_cases h : p.1 = qid
  · simp [Function.comp, h]
  · simp [Function.comp, h]

theorem setEntry_mem (res : Results) (qid : String) (inner : Inner)
    (p : String × Inner) (hp : p ∈ setEntry res qid inner) :
    p = (qid, inner) ∨ p ∈ res := by
  rcases List.mem_map.mp hp with ⟨q, hq, hqp⟩
  by_cases h : q.1 = qid
  · rw [if_pos h] at hqp
    exact Or.inl hqp.symm
  · rw [if_neg h] at hqp
    exact Or.inr (hqp ▸ hq)

theorem getEntry_cons (p : String × Inner) (res : Results) (q : String) :
    getEntry (p :: res) q = if p.1 = q then p.2 else getEntry res q := by
  unfold getEntry
  by_cases h : p.1 = q
  · rw [List.find?_cons_of_pos _ (by simp [h]), if_pos h]
    rfl
  · rw [List.find?_cons_of_neg _ (by simp [h]), if_neg h]

theorem setEntry_cons (p : String × Inner) (res : Results) (qid : String)
    (inner : Inner) :
    setEntry (p :: res) qid inner
      = (if p.1 = qid then (qid, inner) else p) :: setEntry res qid inner := rfl

theorem getEntry_setEntry_ne :
    ∀ (res : Results) (qid : String) (inner : Inner) (q : String), q ≠ qid →
      getEntry (setEntry res qid inner) q = getEntry res q := by
  intro res qid inner q hne
  induction res with
  | nil => rfl
  | cons p res ih =>
    rw [setEntry_cons, getEntry_cons, getEntry_cons]
    by_cases hp : p.1 = qid
    · rw [if_pos hp]
      have hq1 : ¬ (qid = q) := fun h => hne h.symm
      rw [if_neg hq1, if_neg (by rw [hp]; exact hq1), ih]
    · rw [if_neg hp]
      by_cases hq : p.1 = q
      · rw [if_pos hq, if_pos hq]
      · rw [if_neg hq, if_neg hq, ih]

theorem getEntry_setEntry_self :
    ∀ (res : Results) (qid : String) (inner : Inner),
      qid ∈ res.map Prod.fst →
      getEntry (setEntry res qid inner) qid = inner := by
  intro res qid inner hmem
  induction res with
  | nil => simp at hmem
  | cons p res ih =>
    rw [setEntry_cons, getEntry_cons]
    by_cases hp : p.1 = qid
    · rw [if_pos hp]
      simp
    · rw [if_neg hp]
      rw [if_neg hp]
      apply ih
      rcases List.mem_map.mp hmem with ⟨q, hq, hqid⟩
      rcases List.mem_cons.mp hq with h | h
      · exact absurd (h ▸ hqid) hp
      · exact List.mem_map.mpr ⟨q, h, hqid⟩

theorem getEntry_nil_of_all (res : Results) (q : String)
    (h : ∀ p ∈ res, p.2 = ([] : Inner)) : getEntry res q = [] := by
  unfold getEntry
  cases hf : res.find? (fun p => decide (p.1 = q)) with
  | none => rfl
  | some p =>
    show p.2 = []
    exact h p (List.mem_of_find?_eq_some hf)

theorem initResults_aux :
    ∀ (qids : List String) (m : Results) (p : String × Inner),
      p ∈ qids.foldl (fun m qid =>
        if m.any (fun q => decide (q.1 = qid)) then m else m ++ [(qid, [])]) m →
      p ∈ m ∨ p.2 = [] := by
  intro qids
  induction qids with
  | nil => intro m p hp; exact Or.inl hp
  | cons a qids ih =>
    intro m p hp
    rw [List.foldl_cons] at hp
    rcases ih _ p hp with h | h
    · by_cases ha : m.any (fun q => decide (q.1 = a))
      · rw [if_pos ha] at h
        exact Or.inl h
      · rw [if_neg ha] at h
        rcases List.mem_append.mp h with h2 | h2
        · exact Or.inl h2
        · right
          rw [List.mem_singleton.mp h2]
    · exact Or.inr h

theorem initResults_snd (qids : List String) (p : String × Inner)
    (hp : p ∈ initResults qids) : p.2 = [] := by
  rcases initResults_aux qids [] p hp with h | h
  · simp at h
  · exact h

theorem initResults_getEntry (qids : List String) (q : String) :
    getEntry (initResults qids) q = [] :=
  getEntry_nil_of_all _ _ (fun p hp => initResults_snd qids p hp)

theorem initResults_keys :
    ∀ (qids : List String) (m : Results) (q : String),
      (q ∈ m.map Prod.fst ∨ q ∈ qids) →
      q ∈ (qids.foldl (fun m qid =>
        if m.any (fun q => decide (q.1 = qid)) then m else m ++ [(qid, [])]) m).map Prod.fst := by
  intro qids
  induction qids with
  | nil =>
    intro m q hq
    rcases hq with h | h
    · exact h
    · simp at h
  | cons a qids ih =>
    intro m q hq
    rw [List.foldl_cons]
    apply ih
    by_cases ha : m.any (fun q => decide (q.1 = a))
    · rw [if_pos ha]
      rcases hq with h | h
      · exact Or.inl h
      · rcases List.mem_cons.mp h with h2 | h2
        · left
          rcases List.any_eq_true.mp ha with ⟨p, hp, hpa⟩
          simp only [decide_eq_true_eq] at hpa
          subst h2
          exact List.mem_map.mpr ⟨p, hp, hpa⟩
        · exact Or.inr h2
    · rw [if_neg ha]
      rcases hq with h | h
      · left
        rw [List.map_append]
        exact List.mem_append_left _ h
      · rcases List.mem_cons.mp h with h2 | h2
        · left
          rw [List.map_append]
          subst h2
          simp
        · exact Or.inr h2

theorem initResults_keys_mem (qids : List String) (q : String) (hq : q ∈ qids) :
    q ∈ (initResults qids).map Prod.fst :=
  initResults_keys qids [] q (Or.inr hq)

theorem formatStep_ok (cids : List String) (cs : Int) (table : List Row)
    (res : Results) (p : Nat × String) (res2 : Results)
    (h : (do
        let inner ← table.foldlM (mergeRow cids cs p.1 p.2) (getEntry res p.2)
        pure (setEntry res p.2 inner)) = Except.ok res2) :
    ∃ inner1, table.foldlM (mergeRow cids cs p.1 p.2) (getEntry res p.2) = .ok inner1
      ∧ res2 = setEntry res p.2 inner1 := by
  cases hf : table.foldlM (mergeRow cids cs p.1 p.2) (getEntry res p.2) with
  | error e => rw [hf, except_bind_err] at h; cases h
  | ok inner1 =>
    rw [hf, except_bind_ok] at h
    cases h
    exact ⟨inner1, rfl, rfl⟩


/-! ### Score-matrix shapes and chunk-size bounds -/

theorem scoreMatrix_length (name : String) (Q C : List (List ℚ)) :
    (scoreMatrix name Q C).length = Q.length := by
  unfold scoreMatrix
  split <;> simp [cos_sim, dot_score]

theorem scoreMatrix_row_length (name : String) (Q C : List (List ℚ))
    (row : List (Option ℚ)) (hr : row ∈ scoreMatrix name Q C) :
    row.length = C.length := by
  unfold scoreMatrix at hr
  split at hr <;>
  · first
    | (rcases List.mem_map.mp hr with ⟨q, _, hq⟩
       subst hq
       simp [cos_sim, dot_score])

theorem getEntry_mem_or_nil (res : Results) (qid : String) :
    (qid, getEntry res qid) ∈ res ∨ getEntry res qid = [] := by
  unfold getEntry
  cases hf : res.find? (fun p => decide (p.1 = qid)) with
  | none => exact Or.inr rfl
  | some p =>
    left
    have hmem := List.mem_of_find?_eq_some hf
    have hpred := List.find?_some hf
    simp only [decide_eq_true_eq] at hpred
    show (qid, p.2) ∈ res
    rw [← hpred]
    exact hmem

theorem foldlM_ok_all {σ α : Type} (f : σ → α → Except String σ)
    (l : List α) (h : ∀ s2 a, a ∈ l → ∃ s3, f s2 a = .ok s3) :
    ∀ s, ∃ final, l.foldlM f s = .ok final := by
  induction l with
  | nil => intro s; exact ⟨s, rfl⟩
  | cons a l ih =>
    intro s
    rcases h s a (List.mem_cons_self _ _) with ⟨s3, hs3⟩
    rcases ih (fun s2 b hb => h s2 b (List.mem_cons_of_mem _ hb)) s3 with ⟨final, hfin⟩
    exact ⟨final, by rw [List.foldlM_cons, hs3, except_bind_ok]; exact hfin⟩

theorem streamCorpus_length (st : DRPES) (corpus : List Item) :
    (streamCorpus st corpus).length = corpus.length := by
  unfold streamCorpus sortCorpus
  split
  · exact List.length_mergeSort _
  · rfl

theorem usedCs_pos (st : DRPES) (n : Nat) (hn : 2 ≤ n) (hd : 1 ≤ st.numDevices)
    (hcc : st.corpus_chunk_size = none
      ∨ ∃ c, st.corpus_chunk_size = some c ∧ 1 ≤ c) :
    1 ≤ usedCs st n ∧ usedCs st n ≤ (n : Int) - 1 := by
  unfold usedCs
  rcases hcc with hcc | ⟨c, hcc, hc⟩ <;> rw [hcc]
  · have hdiv : 1 ≤ (n + 10 * st.numDevices - 1) / (10 * st.numDevices) := by
      rw [Nat.one_le_div_iff (by omega)]
      omega
    constructor
    · apply le_min
      · apply le_min
        · exact_mod_cast hdiv
        · omega
      · omega
    · exact min_le_right _ _
  · exact ⟨le_min hc (by omega), min_le_right _ _⟩

theorem search_ok_elim (st : DRPES) (corpus queries : List Item) (top_k : Nat)
    (sf : String) (st2 : DRPES) (res : Results)
    (h : search st corpus queries top_k sf = .ok (st2, res)) :
    (sf = "cos_sim" ∨ sf = "dot")
    ∧ ¬ usedCs st corpus.length ≤ 0
    ∧ st2 = { st with corpus_chunk_size := some (usedCs st corpus.length) }
    ∧ ∃ table, searchTable st.numDevices (usedCs st corpus.length).toNat
        (queries.map Item.vec) (streamCorpus st corpus) top_k sf = .ok table
      ∧ formatResults (queries.map Item.id) ((streamCorpus st corpus).map Item.id)
          table (usedCs st corpus.length) = .ok res := by
  unfold search at h
  by_cases hsf : sf = "cos_sim" ∨ sf = "dot"
  · rw [if_pos hsf] at h
    refine ⟨hsf, ?_, ?_, ?_⟩
    all_goals (
      simp only [searchCore] at h
      by_cases hcs : usedCs st corpus.length ≤ 0
      · rw [if_pos hcs] at h; cases h
      · rw [if_neg hcs] at h
        first
        | exact hcs
        | (cases htab : searchTable st.numDevices (usedCs st corpus.length).toNat
              (queries.map Item.vec) (streamCorpus st corpus) top_k sf with
          | error e =>
            rw [htab, except_bind_err] at h
            cases h
          | ok table =>
            rw [htab, except_bind_ok] at h
            cases hres : formatResults (queries.map Item.id)
                ((streamCorpus st corpus).map Item.id) table (usedCs st corpus.length) with
            | error e =>
              rw [hres, except_bind_err] at h
              cases h
            | ok res2 =>
              rw [hres, except_bind_ok] at h
              cases h
              first
              | rfl
              | exact ⟨table, rfl, hres⟩))
  · rw [if_neg hsf] at h
    cases h


theorem searchTable_spec (numDevices csN : Nat) (queryEmb : List (List ℚ))
    (corpusStream : List Item) (top_k : Nat) (sf : String)
    (hq : 2 ≤ queryEmb.length) (hcs : 0 < csN) :
    ∃ table, searchTable numDevices csN queryEmb corpusStream top_k sf = .ok table
      ∧ table.countP (fun r => decide (¬ r.batch_index = -1))
          ≤ (chunkList csN corpusStream).length * (top_k + 1)
      ∧ ∀ r ∈ table, r.batch_index = -1 ∨
          (0 ≤ r.batch_index
            ∧ r.values.length = queryEmb.length
            ∧ r.indices.length = queryEmb.length
            ∧ ∀ qi, qi < queryEmb.length →
                0 ≤ r.indices.getD qi 0
                ∧ r.indices.getD qi 0 + r.batch_index * (csN : Int)
                    < (corpusStream.length : Int)) := by
  set items := (chunkList csN corpusStream).enum.map (fun p =>
    (Int.ofNat p.1, scoreMatrix sf queryEmb (p.2.map Item.vec))) with hitems
  have hall : ∀ p ∈ items, ∃ rws, workerRows p.2 top_k p.1 = .ok rws := by
    intro p hp
    rcases List.mem_map.mp hp with ⟨q, hq2, hqp⟩
    subst hqp
    rcases workerRows_spec (scoreMatrix sf queryEmb (q.2.map Item.vec)) top_k
      (Int.ofNat q.1) (q.2.map Item.vec).length
      (by rw [scoreMatrix_length]; exact hq)
      (fun row hrow => scoreMatrix_row_length _ _ _ _ hrow) with ⟨rws, hok, _⟩
    exact ⟨rws, hok⟩
  rcases accumRows_spec top_k items [] hall with ⟨rows, hfold, hmem, hlen⟩
  refine ⟨List.replicate numDevices sentinelRow ++ rows, ?_, ?_, ?_⟩
  · unfold searchTable accumRows
    rw [← hitems, hfold]
    rw [except_bind_ok]
    rfl
  · rw [List.countP_append]
    have hsent : (List.replicate numDevices sentinelRow).countP
        (fun r => decide (¬ r.batch_index = -1)) = 0 := by
      rw [List.countP_eq_zero]
      intro r hr
      rw [List.eq_of_mem_replicate hr]
      simp [sentinelRow]
    rw [hsent]
    have hcle : rows.countP (fun r => decide (¬ r.batch_index = -1)) ≤ rows.length :=
      @List.countP_le_length Row (fun r => decide (¬ r.batch_index = -1)) rows
    have hlen2 : items.length = (chunkList csN corpusStream).length := by
      rw [hitems, List.length_map, List.enum_length]
    rw [hlen2] at hlen
    omega
  · intro r hr
    rcases List.mem_append.mp hr with hr | hr
    · left
      rw [List.eq_of_mem_replicate hr]
      rfl
    · right
      rcases hmem r hr with ⟨p, hp, rws, hok, hrin⟩
      rcases List.mem_map.mp hp with ⟨q, hq2, hqp⟩
      obtain ⟨i, chunk⟩ := q
      rcases List.mem_enum hq2 with ⟨hilt, hchunk⟩
      subst hqp
      have hrect : ∀ row ∈ scoreMatrix sf queryEmb (chunk.map Item.vec),
          row.length = (chunk.map Item.vec).length :=
        fun row hrow => scoreMatrix_row_length _ _ _ _ hrow
      rcases workerRows_spec (scoreMatrix sf queryEmb (chunk.map Item.vec)) top_k
        (Int.ofNat i) (chunk.map Item.vec).length
        (by rw [scoreMatrix_length]; exact hq) hrect with
        ⟨rws2, hok2, hlen2, hshape, hentries⟩
      have hrws : rws = rws2 := by
        rw [hok] at hok2
        cases hok2
        rfl
      subst hrws
      have hb := hshape r hrin
      refine ⟨by rw [hb.1]; exact Int.ofNat_nonneg i, ?_, ?_, ?_⟩
      · rw [hb.2.1, scoreMatrix_length]
      · rw [hb.2.2, scoreMatrix_length]
      · intro qi hqi
        have hqiraw : qi < (scoreMatrix sf queryEmb (chunk.map Item.vec)).length := by
          rw [scoreMatrix_length]; exact hqi
        -- locate r inside rws2
        rcases List.mem_iff_getElem.mp hrin with ⟨j, hjlt, hjr⟩
        have hjK : j < min (top_k + 1) (chunk.map Item.vec).length := by
          rw [← hlen2]; exact hjlt
        have hrget : rws.getD j sentinelRow = r := by
          rw [List.getD_eq_getElem _ _ hjlt, hjr]
        rcases hentries j qi hjK hqiraw with ⟨hval, hidx⟩
        rw [hrget] at hval hidx
        set K := min (top_k + 1) (chunk.map Item.vec).length with hK
        set srow := ((scoreMatrix sf queryEmb (chunk.map Item.vec)).getD qi []).map
          replaceNaN with hsrow
        have hsrowlen : srow.length = chunk.length := by
          rw [hsrow, List.length_map, List.getD_eq_getElem _ _ hqiraw]
          have := hrect _ (List.getElem_mem hqiraw)
          rw [this, List.length_map]
        have hselLen : (topkSelect K srow).length = K := by
          rw [topkSelect_length, hsrowlen]
          have : K ≤ chunk.length := by
            rw [hK, List.length_map]
            exact min_le_right _ _
          omega
        have hjsel : j < (topkSelect K srow).length := by rw [hselLen]; exact hjK
        have hpair : (topkSelect K srow).getD j (0, 0) ∈ topkSelect K srow := by
          rw [List.getD_eq_getElem _ _ hjsel]
          exact List.getElem_mem hjsel
        have hbound := (topkSelect_mem K srow _ hpair).1
        rw [hsrowlen] at hbound
        -- chunk geometry
        have hchunk2 : chunk = (corpusStream.drop (csN * i)).take csN := by
          have := chunkList_getD csN hcs corpusStream i hilt
          rw [List.getD_eq_getElem _ _ hilt] at this
          rw [hchunk, this]
        have hczlen : chunk.length + csN * i ≤ corpusStream.length := by
          rw [hchunk2]
          rw [List.length_take, List.length_drop]
          have := chunkList_length_mul csN hcs corpusStream i hilt
          omega
        constructor
        · rw [hidx]
          exact Int.ofNat_nonneg _
        · rw [hidx, hb.1]
          have hfin : ((topkSelect K srow).getD j (0, 0)).2 + i * csN
              < corpusStream.length := by
            have : ((topkSelect K srow).getD j (0, 0)).2 < chunk.length := hbound
            calc ((topkSelect K srow).getD j (0, 0)).2 + i * csN
                < chunk.length + i * csN := by omega
              _ = chunk.length + csN * i := by ring_nf
              _ ≤ corpusStream.length := hczlen
          have hcast : Int.ofNat i = (i : Int) := rfl
          rw [hcast]
          exact_mod_cast hfin


theorem accumRows_ok_length (top_k : Nat) :
    ∀ (items : List (Int × List (List (Option ℚ)))) (acc out : List Row),
      (items.foldlM (fun acc p => do
          let r ← workerRows p.2 top_k p.1
          pure (acc ++ r)) acc) = .ok out →
      out.length ≤ acc.length + items.length * (top_k + 1) := by
  intro items
  induction items with
  | nil =>
    intro acc out h
    simp only [List.foldlM_nil] at h
    cases h
    simp
  | cons p items ih =>
    intro acc out h
    rcases foldlM_cons_ok _ _ _ _ _ h with ⟨mid, hstep, hrest⟩
    cases hw : workerRows p.2 top_k p.1 with
    | error e => rw [hw, except_bind_err] at hstep; cases hstep
    | ok rws =>
      rw [hw, except_bind_ok] at hstep
      cases hstep
      have h1 := workerRows_length_le _ _ _ _ hw
      have h2 := ih _ _ hrest
      rw [List.length_append] at h2
      simp only [List.length_cons]
      calc out.length ≤ acc.length + rws.length + items.length * (top_k + 1) := h2
        _ ≤ acc.length + (items.length + 1) * (top_k + 1) := by nlinarith
        _ = acc.length + (items.length + 1) * (top_k + 1) := rfl

theorem searchTable_ok_count (numDevices csN : Nat) (queryEmb : List (List ℚ))
    (corpusStream : List Item) (top_k : Nat) (sf : String) (table : List Row)
    (h : searchTable numDevices csN queryEmb corpusStream top_k sf = .ok table) :
    table.countP (fun r => decide (¬ r.batch_index = -1))
      ≤ (chunkList csN corpusStream).length * (top_k + 1) := by
  unfold searchTable accumRows at h
  set items := (chunkList csN corpusStream).enum.map (fun p =>
    (Int.ofNat p.1, scoreMatrix sf queryEmb (p.2.map Item.vec))) with hitems
  cases hf : items.foldlM (fun acc p => do
      let r ← workerRows p.2 top_k p.1
      pure (acc ++ r)) [] with
  | error e => rw [hf, except_bind_err] at h; cases h
  | ok rows =>
    rw [hf, except_bind_ok] at h
    cases h
    rw [List.countP_append]
    have hsent : (List.replicate numDevices sentinelRow).countP
        (fun r => decide (¬ r.batch_index = -1)) = 0 := by
      rw [List.countP_eq_zero]
      intro r hr
      rw [List.eq_of_mem_replicate hr]
      simp [sentinelRow]
    rw [hsent]
    have h1 := accumRows_ok_length top_k items [] rows hf
    have h2 : List.countP (fun r => decide (¬ r.batch_index = -1)) rows ≤ rows.length :=
      @List.countP_le_length Row (fun r => decide (¬ r.batch_index = -1)) rows
    have h3 : items.length = (chunkList csN corpusStream).length := by
      rw [hitems, List.length_map, List.enum_length]
    rw [h3] at h1
    simp only [List.length_nil] at h1
    omega

theorem formatFold_bound (cids : List String) (cs : Int) (table : List Row) :
    ∀ (L : List (Nat × String)) (res0 final : Results),
      (L.map Prod.snd).Nodup →
      (∀ q ∈ L.map Prod.snd, getEntry res0 q = []) →
      (∀ p ∈ res0, p.2.length
        ≤ table.countP (fun r => decide (¬ r.batch_index = -1))) →
      L.foldlM (fun res p => do
          let inner ← table.foldlM (mergeRow cids cs p.1 p.2) (getEntry res p.2)
          pure (setEntry res p.2 inner)) res0 = .ok final →
      ∀ p ∈ final, p.2.length
        ≤ table.countP (fun r => decide (¬ r.batch_index = -1)) := by
  intro L
  induction L with
  | nil =>
    intro res0 final _ _ hbound h
    simp only [List.foldlM_nil] at h
    cases h
    exact hbound
  | cons a L ih =>
    intro res0 final hnd hempty hbound h
    obtain ⟨qi, qid⟩ := a
    rcases foldlM_cons_ok _ _ _ _ _ h with ⟨res1, hstep, hrest⟩
    rcases formatStep_ok _ _ _ _ _ _ hstep with ⟨inner1, hin, hres1⟩
    subst hres1
    have hq0 : getEntry res0 qid = [] := hempty qid (by simp)
    rw [hq0] at hin
    have hlen1 : inner1.length
        ≤ table.countP (fun r => decide (¬ r.batch_index = -1)) := by
      have := mergeFold_length cids cs qi qid table [] inner1 hin
      simpa using this
    rw [List.map_cons] at hnd
    rcases List.nodup_cons.mp hnd with ⟨hqnot, hndL⟩
    refine ih (setEntry res0 qid inner1) final hndL ?_ ?_ hrest
    · intro q hq
      have hne : q ≠ qid := fun heq => hqnot (heq ▸ hq)
      rw [getEntry_setEntry_ne _ _ _ _ hne]
      exact hempty q (by simp [hq])
    · intro p hp
      rcases setEntry_mem _ _ _ _ hp with h1 | h1
      · rw [h1]
        exact hlen1
      · exact hbound p h1

theorem formatResults_bound (qids cids : List String) (table : List Row)
    (cs : Int) (res : Results) (hnd : qids.Nodup)
    (h : formatResults qids cids table cs = .ok res) :
    ∀ p ∈ res, p.2.length
      ≤ table.countP (fun r => decide (¬ r.batch_index = -1)) := by
  refine formatFold_bound cids cs table qids.enum (initResults qids) res ?_ ?_ ?_ h
  · rw [List.enum_map_snd]
    exact hnd
  · intro q _
    exact initResults_getEntry qids q
  · intro p hp
    rw [initResults_snd qids p hp]
    simp

theorem search_ok (st : DRPES) (corpus queries : List Item) (top_k : Nat)
    (sf : String) (hsf : sf = "cos_sim" ∨ sf = "dot")
    (hn : 2 ≤ corpus.length) (hq : 2 ≤ queries.length) (hd : 1 ≤ st.numDevices)
    (hcc : st.corpus_chunk_size = none
      ∨ ∃ c, st.corpus_chunk_size = some c ∧ 1 ≤ c) :
    ∃ res, search st corpus queries top_k sf
      = .ok ({ st with corpus_chunk_size := some (usedCs st corpus.length) }, res) := by
  rcases usedCs_pos st corpus.length hn hd hcc with ⟨hcs1, hcs2⟩
  have hcsn : 0 < (usedCs st corpus.length).toNat := by omega
  have hqlen : 2 ≤ (queries.map Item.vec).length := by
    rw [List.length_map]
    exact hq
  rcases searchTable_spec st.numDevices (usedCs st corpus.length).toNat
    (queries.map Item.vec) (streamCorpus st corpus) top_k sf hqlen hcsn with
    ⟨table, htab, _, hrows⟩
  have hcast : (((usedCs st corpus.length).toNat : Int)) = usedCs st corpus.length :=
    Int.toNat_of_nonneg (by omega)
  have hmergeable : ∀ (qi : Nat), qi < queries.length → ∀ r ∈ table,
      RowMergeable ((streamCorpus st corpus).map Item.id)
        (usedCs st corpus.length) qi r := by
    intro qi hqi r hr
    rcases hrows r hr with hb | ⟨hbn, hv, hi, hbounds⟩
    · exact Or.inl hb
    · right
      have hqi2 : qi < (queries.map Item.vec).length := by
        rw [List.length_map]
        exact hqi
      have hb1 := (hbounds qi hqi2).1
      have hb2 := (hbounds qi hqi2).2
      rw [hcast] at hb2
      have hmul : 0 ≤ r.batch_index * usedCs st corpus.length :=
        mul_nonneg hbn (by omega)
      refine ⟨?_, ?_, ?_, ?_⟩
      · rw [hi, List.length_map]
        exact hqi
      · rw [hv, List.length_map]
        exact hqi
      · unfold globalPosition
        omega
      · unfold globalPosition
        rw [List.length_map, streamCorpus_length]
        rw [streamCorpus_length] at hb2
        omega
  have hformat : ∃ res, formatResults (queries.map Item.id)
      ((streamCorpus st corpus).map Item.id) table
      (usedCs st corpus.length) = .ok res := by
    unfold formatResults
    apply foldlM_ok_all
    intro res2 p hp
    obtain ⟨qi, qid⟩ := p
    have hqi : qi < queries.length := by
      have h1 := (List.mem_enum hp).1
      rw [List.length_map] at h1
      exact h1
    rcases mergeFold_ok ((streamCorpus st corpus).map Item.id)
      (usedCs st corpus.length) qi qid table (getEntry res2 qid)
      (fun r hr => hmergeable qi hqi r hr) with ⟨inner1, hin⟩
    exact ⟨_, by rw [hin, except_bind_ok]; rfl⟩
  rcases hformat with ⟨res, hres⟩
  refine ⟨res, ?_⟩
  unfold search
  rw [if_pos hsf]
  simp only [searchCore]
  rw [if_neg (by omega)]
  rw [htab, except_bind_ok, hres, except_bind_ok]
  rfl


/-! ### Error classification: the validation error is distinguishable -/

theorem scoreFnErrMsg_length (sf : String) :
    (scoreFnErrMsg sf).length = sf.length + 88 := by
  unfold scoreFnErrMsg
  rw [String.length_append, String.length_append]
  have h1 : "score function: ".length = 16 := by decide
  have h2 : (" must be either (cos_sim) for cosine similarity or (dot) for dot product").length = 72 := by decide
  omega

theorem workerRows_error (raw : List (List (Option ℚ))) (top_k : Nat) (b : Int)
    (e : String) (h : workerRows raw top_k b = .error e) :
    e = "IndexError: index 1 is out of bounds" := by
  by_cases hc : (raw.map (fun r => r.map replaceNaN)).length < 2
  · simp only [workerRows, if_pos hc] at h
    cases h
    rfl
  · simp only [workerRows, if_neg hc] at h
    cases h

theorem pyIndex_error {α : Type} (l : List α) (i : Int) (e : String)
    (h : pyIndex l i = .error e) : e = "IndexError: list index out of range" := by
  by_cases hc : (0 ≤ (if i < 0 then i + l.length else i)
      ∧ (if i < 0 then i + l.length else i).toNat < l.length)
  · simp only [pyIndex, dif_pos hc] at h
    cases h
  · simp only [pyIndex, dif_neg hc] at h
    cases h
    rfl

theorem mergeRow_error (cids : List String) (cs : Int) (qi : Nat) (qid : String)
    (inner : Inner) (row : Row) (e : String)
    (h : mergeRow cids cs qi qid inner row = .error e) :
    e = "IndexError: list index out of range" := by
  by_cases hb : row.batch_index = -1
  · rw [mergeRow_sentinel _ _ _ _ _ _ hb] at h
    cases h
  · simp only [mergeRow, if_neg hb] at h
    cases h1 : pyIndex row.indices (qi : Int) with
    | error e2 =>
      rw [h1, except_bind_err] at h
      cases h
      exact pyIndex_error _ _ _ h1
    | ok idx =>
      rw [h1, except_bind_ok] at h
      cases h2 : pyIndex row.values (qi : Int) with
      | error e2 =>
        rw [h2, except_bind_err] at h
        cases h
        exact pyIndex_error _ _ _ h2
      | ok score =>
        rw [h2, except_bind_ok] at h
        cases h3 : pyIndex cids (globalPosition idx row.batch_index cs) with
        | error e2 =>
          rw [h3, except_bind_err] at h
          cases h
          exact pyIndex_error _ _ _ h3
        | ok cid =>
          rw [h3, except_bind_ok] at h
          split at h <;> cases h

theorem searchCore_error (st : DRPES) (cs : Int) (corpus queries : List Item)
    (top_k : Nat) (sf : String) (e : String)
    (h : searchCore st cs corpus queries top_k sf = .error e) :
    e = "ValueError: batch_size should be a positive integer value"
    ∨ e = "IndexError: index 1 is out of bounds"
    ∨ e = "IndexError: list index out of range" := by
  simp only [searchCore] at h
  by_cases hcs : cs ≤ 0
  · rw [if_pos hcs] at h
    cases h
    exact Or.inl rfl
  · rw [if_neg hcs] at h
    cases htab : searchTable st.numDevices cs.toNat (queries.map Item.vec)
        (streamCorpus st corpus) top_k sf with
    | error e2 =>
      rw [htab, except_bind_err] at h
      cases h
      right
      left
      unfold searchTable accumRows at htab
      cases hacc : ((chunkList cs.toNat (streamCorpus st corpus)).enum.map (fun p =>
          (Int.ofNat p.1, scoreMatrix sf (queries.map Item.vec) (p.2.map Item.vec)))).foldlM
          (fun acc p => do
            let r ← workerRows p.2 top_k p.1
            pure (acc ++ r)) [] with
      | error e3 =>
        rw [hacc, except_bind_err] at htab
        cases htab
        refine foldlM_error_pred _ (fun e4 => e4 = "IndexError: index 1 is out of bounds")
          ?_ _ _ _ hacc
        intro s a e4 hsa
        cases hw : workerRows a.2 top_k a.1 with
        | error e5 =>
          rw [hw, except_bind_err] at hsa
          cases hsa
          exact workerRows_error _ _ _ _ hw
        | ok rws =>
          rw [hw, except_bind_ok] at hsa
          cases hsa
      | ok rows =>
        rw [hacc, except_bind_ok] at htab
        cases htab
    | ok table =>
      rw [htab, except_bind_ok] at h
      cases hres : formatResults (queries.map Item.id)
          ((streamCorpus st corpus).map Item.id) table cs with
      | error e2 =>
        rw [hres, except_bind_err] at h
        cases h
        right
        right
        unfold formatResults at hres
        refine foldlM_error_pred _ (fun e4 => e4 = "IndexError: list index out of range")
          ?_ _ _ _ hres
        intro s a e4 hsa
        cases hin : table.foldlM (mergeRow ((streamCorpus st corpus).map Item.id)
            cs a.1 a.2) (getEntry s a.2) with
        | error e5 =>
          rw [hin, except_bind_err] at hsa
          cases hsa
          refine foldlM_error_pred _ (fun e6 => e6 = "IndexError: list index out of range")
            ?_ _ _ _ hin
          intro s2 r e6 hr
          exact mergeRow_error _ _ _ _ _ _ _ hr
        | ok inner1 =>
          rw [hin, except_bind_ok] at hsa
          cases hsa
      | ok res =>
        rw [hres, except_bind_ok] at h
        cases h

theorem searchCore_ne_validation_error (st : DRPES) (cs : Int)
    (corpus queries : List Item) (top_k : Nat) (sf sf2 : String) :
    searchCore st cs corpus queries top_k sf ≠ .error (scoreFnErrMsg sf2) := by
  intro h
  have he := searchCore_error _ _ _ _ _ _ _ h
  have hlen := scoreFnErrMsg_length sf2
  rcases he with he | he | he
  · rw [he] at hlen
    have h2 : ("ValueError: batch_size should be a positive integer value").length = 57 := by
      decide
    omega
  · rw [he] at hlen
    have h2 : ("IndexError: index 1 is out of bounds").length = 36 := by decide
    omega
  · rw [he] at hlen
    have h2 : ("IndexError: list index out of range").length = 35 := by decide
    omega

theorem accumRows_ok_mem (top_k : Nat) :
    ∀ (items : List (Int × List (List (Option ℚ)))) (acc out : List Row),
      (items.foldlM (fun acc p => do
          let r ← workerRows p.2 top_k p.1
          pure (acc ++ r)) acc) = .ok out →
      ∀ r ∈ out, r ∈ acc ∨ ∃ p ∈ items, ∃ rws,
        workerRows p.2 top_k p.1 = .ok rws ∧ r ∈ rws := by
  intro items
  induction items with
  | nil =>
    intro acc out h
    simp only [List.foldlM_nil] at h
    cases h
    intro r hr
    exact Or.inl hr
  | cons p items ih =>
    intro acc out h
    rcases foldlM_cons_ok _ _ _ _ _ h with ⟨mid, hstep, hrest⟩
    cases hw : workerRows p.2 top_k p.1 with
    | error e => rw [hw, except_bind_err] at hstep; cases hstep
    | ok rws =>
      rw [hw, except_bind_ok] at hstep
      cases hstep
      intro r hr
      rcases ih _ _ hrest r hr with hmem | ⟨q, hq, rws2, h1, h2⟩
      · rcases List.mem_append.mp hmem with hmem | hmem
        · exact Or.inl hmem
        · exact Or.inr ⟨p, List.mem_cons_self _ _, rws, hw, hmem⟩
      · exact Or.inr ⟨q, List.mem_cons_of_mem _ hq, rws2, h1, h2⟩


/-! ### Chunk-size arithmetic: Nat ceiling division matches the rational ceiling -/

theorem natCeilDiv_eq_ceil (n m : Nat) (hm : 0 < m) :
    (((n + m - 1) / m : Nat) : Int) = ⌈(n : ℚ) / (m : ℚ)⌉ := by
  have hm2 : (0:ℚ) < (m:ℚ) := by exact_mod_cast hm
  symm
  rw [Int.ceil_eq_iff]
  have hdm := Nat.div_add_mod (n + m - 1) m
  have hr : (n + m - 1) % m < m := Nat.mod_lt _ hm
  have h1 : m * ((n + m - 1) / m) ≤ n + m - 1 := by omega
  have h2 : n ≤ m * ((n + m - 1) / m) := by omega
  constructor
  · rw [Int.cast_natCast, lt_div_iff hm2]
    have h1q : ((m:ℚ)) * (((n + m - 1) / m : Nat) : ℚ) ≤ (n:ℚ) + (m:ℚ) - 1 := by
      have := h1
      have hcast : ((m * ((n + m - 1) / m) : Nat) : ℚ) ≤ ((n + m - 1 : Nat) : ℚ) := by
        exact_mod_cast this
      push_cast at hcast
      rw [Nat.cast_sub (by omega)] at hcast
      push_cast at hcast
      linarith
    nlinarith
  · rw [Int.cast_natCast, div_le_iff hm2]
    have h2q : (n:ℚ) ≤ ((m:ℚ)) * (((n + m - 1) / m : Nat) : ℚ) := by
      exact_mod_cast h2
    linarith

/-! ## The claims -/

/-- C1 counterexample: with corpus `[d0, d1, d2]`, queries `[q0, q1]`,
`top_k = 1` and an explicit `corpus_chunk_size = 5` (clamped to 2, giving
chunks of sizes 2 and 1), the final mapping for `q0` holds 3 corpus ids, so
`len(results[q]) ≤ top_k` fails: the merge stage accumulates every chunk's
local top-`(top_k+1)` candidates and never truncates to `top_k`. -/
theorem C1_counterexample :
    (innerOf (search exSt [exD0, exD1, exD2] [exQ0, exQ1] 1 "dot") "q0").length = 3
    ∧ ¬ ((innerOf (search exSt [exD0, exD1, exD2] [exQ0, exQ1] 1 "dot") "q0").length ≤ 1) := by
  with_unfolding_all decide

/-- C1 (amended): for every query, the final inner mapping holds at most
`(number of chunks) * (top_k + 1)` corpus ids — each chunk contributes at most
`top_k + 1` candidates per query, but the merge stage performs no global
truncation to `top_k`. -/
theorem C1_results_bounded_per_chunk (st : DRPES) (corpus queries : List Item)
    (top_k : Nat) (sf : String) (st2 : DRPES) (res : Results)
    (hok : search st corpus queries top_k sf = .ok (st2, res))
    (hnd : (queries.map Item.id).Nodup) :
    ∀ p ∈ res, p.2.length
      ≤ (chunkList (usedCs st corpus.length).toNat (streamCorpus st corpus)).length
          * (top_k + 1) := by
  rcases search_ok_elim _ _ _ _ _ _ _ hok with ⟨_, _, _, table, htab, hres⟩
  have hb1 := formatResults_bound _ _ _ _ _ hnd hres
  have hb2 := searchTable_ok_count _ _ _ _ _ _ _ htab
  intro p hp
  exact le_trans (hb1 p hp) hb2

/-- C1 witness: the amended bound evaluated on a concrete ok-run
(2 chunks, `top_k = 1`: query `q0` ends with 3 ≤ 2 * 2 entries). -/
theorem C1_results_bounded_per_chunk_witness :
    (Prod.snd ("q0", [("d0", (1:ℚ)), ("d1", 0), ("d2", 1)])).length
      ≤ (chunkList (usedCs exSt (List.length [exD0, exD1, exD2])).toNat
          (streamCorpus exSt [exD0, exD1, exD2])).length * (1 + 1) :=
  C1_results_bounded_per_chunk exSt [exD0, exD1, exD2] [exQ0, exQ1] 1 "dot"
    { corpus_chunk_size := some 2, numDevices := 1, sort_corpus := true }
    [("q0", [("d0", (1:ℚ)), ("d1", 0), ("d2", 1)]),
     ("q1", [("d1", (1:ℚ)), ("d0", 0), ("d2", 1)])]
    (by with_unfolding_all decide) (by with_unfolding_all decide)
    ("q0", [("d0", (1:ℚ)), ("d1", 0), ("d2", 1)]) (by decide)

/-- C6: `search` raises the score-function validation error exactly when the
name is neither `cos_sim` nor `dot`, and it does so independently of the
corpus, queries and `top_k` — before any encoding or dispatch work can
influence the outcome; for a valid name that error is never raised. -/
theorem C6_score_function_validation (sf : String) :
    (∀ (st : DRPES) (corpus queries : List Item) (top_k : Nat),
        search st corpus queries top_k sf = .error (scoreFnErrMsg sf)
          ↔ ¬ (sf = "cos_sim" ∨ sf = "dot"))
    ∧ (¬ (sf = "cos_sim" ∨ sf = "dot") →
        ∀ (st : DRPES) (c1 q1 : List Item) (tk1 : Nat) (c2 q2 : List Item) (tk2 : Nat),
          search st c1 q1 tk1 sf = search st c2 q2 tk2 sf) := by
  constructor
  · intro st corpus queries top_k
    constructor
    · intro h hvalid
      rw [search, if_pos hvalid] at h
      exact searchCore_ne_validation_error _ _ _ _ _ _ _ h
    · intro hinvalid
      rw [search, if_neg hinvalid]
  · intro hinvalid st c1 q1 tk1 c2 q2 tk2
    rw [search, if_neg hinvalid, search, if_neg hinvalid]

/-- C6 witness: the validation error at the unknown name `euclid`, identical
across two different corpora/query sets. -/
theorem C6_score_function_validation_witness :
    search exSt [exD0] [exQ0] 0 "euclid" = .error (scoreFnErrMsg "euclid")
    ∧ search exSt [exD0] [exQ0] 0 "euclid" = search exSt [exD1] [exQ1] 5 "euclid" :=
  ⟨((C6_score_function_validation "euclid").1 exSt [exD0] [exQ0] 0).mpr (by decide),
   (C6_score_function_validation "euclid").2 (by decide) exSt [exD0] [exQ0] 0 [exD1] [exQ1] 5⟩

/-- C7: when `corpus_chunk_size` is unset, the chunk size used by `search` is
exactly the spec formula `min(ceil(corpus_size / num_workers / 10), 5000)`
clamped to `corpus_size - 1` (with a true rational ceiling), and for a valid
score-function name the whole pipeline runs with that single value — the same
chunk size drives both dispatch chunking and the merge arithmetic inside
`searchCore`. -/
theorem C7_chunk_size_derivation (st : DRPES) (n d : Nat)
    (hcc : st.corpus_chunk_size = none) (hdev : st.numDevices = d) (hd : 0 < d) :
    usedCs st n = specDerivedChunkSize n d
    ∧ ∀ (corpus queries : List Item) (top_k : Nat) (sf : String),
        corpus.length = n → (sf = "cos_sim" ∨ sf = "dot") →
        search st corpus queries top_k sf
          = searchCore st (specDerivedChunkSize n d) corpus queries top_k sf := by
  have hmain : usedCs st n = specDerivedChunkSize n d := by
    unfold usedCs specDerivedChunkSize
    rw [hcc, hdev]
    have hceil : (((n + 10 * d - 1) / (10 * d) : Nat) : Int)
        = ⌈(n : ℚ) / (d : ℚ) / 10⌉ := by
      rw [div_div, natCeilDiv_eq_ceil n (10 * d) (by omega)]
      congr 2
      push_cast
      ring
    rw [hceil]
  refine ⟨hmain, ?_⟩
  intro corpus queries top_k sf hn hsf
  rw [search, if_pos hsf, hn, hmain]

/-- C7 witness: with one device and a 3-item corpus the derived chunk size is
`min(min(ceil(3/1/10), 5000), 2) = 1`, and `search` equals `searchCore` run at
that value. -/
theorem C7_chunk_size_derivation_witness :
    usedCs exStNone 3 = specDerivedChunkSize 3 1
    ∧ search exStNone [exD0, exD1, exD2] [exQ0, exQ1] 1 "dot"
        = searchCore exStNone (specDerivedChunkSize 3 1) [exD0, exD1, exD2]
            [exQ0, exQ1] 1 "dot" :=
  ⟨(C7_chunk_size_derivation exStNone 3 1 rfl rfl (by decide)).1,
   (C7_chunk_size_derivation exStNone 3 1 rfl rfl (by decide)).2
     [exD0, exD1, exD2] [exQ0, exQ1] 1 "dot" rfl (by decide)⟩

/-- C9 counterexample: a corpus of one item with a requested chunk size of 5
(the "corpus smaller than requested chunk size" degenerate case) is clamped
to `1 - 1 = 0`, which the dispatcher rejects: `search` raises the
`DataLoader` batch-size error instead of completing — so the clamping is not
always error-free. -/
theorem C9_counterexample :
    errorOf (search exSt [exD0] [exQ0, exQ1] 1 "dot")
      = some "ValueError: batch_size should be a positive integer value"
    ∧ List.length [exD0] < 5 := by
  with_unfolding_all decide

/-- C9 (amended): for a corpus of at least two items and at least two queries
(with at least one device and any requested chunk size ≥ 1, or none),
degenerate configurations are clamped into `1 ≤ chunk_size ≤ corpus_size - 1`
and the whole pipeline — per-chunk k-selection and merge included — completes
without any runtime error; with at most one corpus item the clamp itself
produces a nonpositive batch size and the job fails. -/
theorem C9_clamping_safe (st : DRPES) (corpus queries : List Item)
    (top_k : Nat) (sf : String) (hsf : sf = "cos_sim" ∨ sf = "dot")
    (hn : 2 ≤ corpus.length) (hq : 2 ≤ queries.length) (hd : 1 ≤ st.numDevices)
    (hcc : st.corpus_chunk_size = none
      ∨ ∃ c, st.corpus_chunk_size = some c ∧ 1 ≤ c) :
    (1 ≤ usedCs st corpus.length
      ∧ usedCs st corpus.length ≤ (corpus.length : Int) - 1)
    ∧ ∃ res, search st corpus queries top_k sf
        = .ok ({ st with corpus_chunk_size := some (usedCs st corpus.length) }, res) :=
  ⟨usedCs_pos st corpus.length hn hd hcc,
   search_ok st corpus queries top_k sf hsf hn hq hd hcc⟩

/-- C9 witness: the amended safety statement on a concrete run (`top_k = 1`
exceeding the final chunk size 1 — the k-selection min-clamp case). -/
theorem C9_clamping_safe_witness :
    (1 ≤ usedCs exSt (List.length [exD0, exD1, exD2])
      ∧ usedCs exSt (List.length [exD0, exD1, exD2])
          ≤ ((List.length [exD0, exD1, exD2] : Nat) : Int) - 1)
    ∧ ∃ res, search exSt [exD0, exD1, exD2] [exQ0, exQ1] 1 "dot"
        = .ok ({ exSt with
            corpus_chunk_size := some (usedCs exSt (List.length [exD0, exD1, exD2])) }, res) :=
  C9_clamping_safe exSt [exD0, exD1, exD2] [exQ0, exQ1] 1 "dot"
    (by decide) (by decide) (by decide) (by decide)
    (Or.inr ⟨5, rfl, by decide⟩)

/-- C10: when the object was constructed with an explicit
`corpus_chunk_size = c`, a call to `search` still clamps it to
`len(corpus) - 1`, stores the clamped value on the object, and a subsequent
`search` on the returned state finds `corpus_chunk_size` already set and
reuses that stored value (clamping it again to the new corpus) instead of
re-deriving it from the new corpus size. -/
theorem C10_chunk_size_persists (st : DRPES) (c : Int)
    (hcc : st.corpus_chunk_size = some c) (corpus queries : List Item)
    (top_k : Nat) (sf : String) (st2 : DRPES) (res : Results) (n2 : Nat)
    (hok : search st corpus queries top_k sf = .ok (st2, res)) :
    usedCs st corpus.length = min c ((corpus.length : Int) - 1)
    ∧ st2.corpus_chunk_size = some (min c ((corpus.length : Int) - 1))
    ∧ usedCs st2 n2 = min (min c ((corpus.length : Int) - 1)) ((n2 : Int) - 1) := by
  have h1 : usedCs st corpus.length = min c ((corpus.length : Int) - 1) := by
    unfold usedCs
    rw [hcc]
  rcases search_ok_elim _ _ _ _ _ _ _ hok with ⟨_, _, hst2, _⟩
  have h2 : st2.corpus_chunk_size = some (min c ((corpus.length : Int) - 1)) := by
    rw [hst2, ← h1]
  refine ⟨h1, h2, ?_⟩
  unfold usedCs
  rw [h2]

/-- C10 witness: `corpus_chunk_size = 5` is clamped to 2 on a 3-item corpus,
persists on the returned object, and a second job over a 7-item corpus reuses
`min 2 (7-1) = 2` rather than re-deriving from the new corpus. -/
theorem C10_chunk_size_persists_witness :
    usedCs exSt (List.length [exD0, exD1, exD2])
        = min 5 (((List.length [exD0, exD1, exD2] : Nat) : Int) - 1)
    ∧ ({ corpus_chunk_size := some 2, numDevices := 1,
          sort_corpus := true } : DRPES).corpus_chunk_size
        = some (min 5 (((List.length [exD0, exD1, exD2] : Nat) : Int) - 1))
    ∧ usedCs { corpus_chunk_size := some 2, numDevices := 1, sort_corpus := true } 7
        = min (min 5 (((List.length [exD0, exD1, exD2] : Nat) : Int) - 1)) ((7 : Nat) - 1) :=
  C10_chunk_size_persists exSt 5 rfl [exD0, exD1, exD2] [exQ0, exQ1] 1 "dot"
    { corpus_chunk_size := some 2, numDevices := 1, sort_corpus := true }
    [("q0", [("d0", (1:ℚ)), ("d1", 0), ("d2", 1)]),
     ("q1", [("d1", (1:ℚ)), ("d0", 0), ("d2", 1)])] 7
    (by with_unfolding_all decide)


/-- C8: a worker's record stream starts with exactly one sentinel record
(batch index `-1`, written by `warmup` before any chunk work, and no real
record carries batch index `-1` when chunk ids are nonnegative), and the
merge stage is invariant under dropping all batch-index `-1` rows from the
collector table — sentinels contribute nothing to any query's results. -/
theorem C8_sentinel_protocol (assigned : List (Int × List (List (Option ℚ))))
    (top_k : Nat) (trace : List Row)
    (hpos : ∀ p ∈ assigned, 0 ≤ p.1)
    (htr : workerTrace assigned top_k = .ok trace) :
    (trace.head? = some sentinelRow
      ∧ trace.countP (fun r => decide (r.batch_index = -1)) = 1)
    ∧ ∀ (query_ids corpus_ids : List String) (cs : Int) (table : List Row),
        formatResults query_ids corpus_ids table cs
          = formatResults query_ids corpus_ids
              (table.filter (fun r => decide (¬ r.batch_index = -1))) cs := by
  constructor
  · unfold workerTrace at htr
    cases hacc : accumRows top_k assigned with
    | error e =>
      rw [hacc, except_bind_err] at htr
      cases htr
    | ok rows =>
      rw [hacc, except_bind_ok] at htr
      cases htr
      constructor
      · rfl
      · rw [List.countP_cons_of_pos _ _ (by simp [sentinelRow])]
        have hzero : rows.countP (fun r => decide (r.batch_index = -1)) = 0 := by
          rw [List.countP_eq_zero]
          intro r hr
          unfold accumRows at hacc
          rcases accumRows_ok_mem top_k assigned [] rows hacc r hr with hmem | ⟨p, hp, rws, hw, hrin⟩
          · simp at hmem
          · have hb := workerRows_batch _ _ _ _ hw r hrin
            have := hpos p hp
            simp only [decide_eq_true_eq]
            omega
        rw [hzero]
  · intro query_ids corpus_ids cs table
    unfold formatResults
    apply foldlM_ext
    intro res p
    rw [mergeFold_filter]

/-- C8 witness: a worker that handled one chunk with id 0 emits the sentinel
first and exactly one record with batch index `-1`, and the merge over an
example table equals the merge over its sentinel-free filtering. -/
theorem C8_sentinel_protocol_witness :
    (([sentinelRow, { values := [1, 1], indices := [0, 1], batch_index := 0 }] : List Row).head?
        = some sentinelRow
      ∧ ([sentinelRow, { values := [1, 1], indices := [0, 1], batch_index := 0 }] : List Row).countP
          (fun r => decide (r.batch_index = -1)) = 1)
    ∧ ∀ (query_ids corpus_ids : List String) (cs : Int) (table : List Row),
        formatResults query_ids corpus_ids table cs
          = formatResults query_ids corpus_ids
              (table.filter (fun r => decide (¬ r.batch_index = -1))) cs :=
  C8_sentinel_protocol [((0:Int), [[some (1:ℚ), some 0], [some 0, some 1]])] 0
    [sentinelRow, { values := [1, 1], indices := [0, 1], batch_index := 0 }]
    (by decide) (by with_unfolding_all decide)

/-- C3: in every completed job, a query's own id is never a key of its inner
result mapping — whenever a candidate resolves to the query's id it is
dropped by the merge stage (self-match suppression), whatever the chunking. -/
theorem C3_no_self_match (st : DRPES) (corpus queries : List Item)
    (top_k : Nat) (sf : String) (st2 : DRPES) (res : Results)
    (hok : search st corpus queries top_k sf = .ok (st2, res)) :
    ∀ p ∈ res, ∀ e ∈ p.2, e.1 ≠ p.1 := by
  rcases search_ok_elim _ _ _ _ _ _ _ hok with ⟨_, _, _, table, htab, hres⟩
  unfold formatResults at hres
  refine foldlM_inv _ (fun s => ∀ p ∈ s, ∀ e ∈ p.2, e.1 ≠ p.1) ?_ _ _ _ ?_ hres
  · intro s a s2 hP hstep
    rcases formatStep_ok _ _ _ _ _ _ hstep with ⟨inner1, hin, hset⟩
    have hstart : ∀ e ∈ getEntry s a.2, e.1 ≠ a.2 := by
      rcases getEntry_mem_or_nil s a.2 with hmem | hnil
      · exact fun e he => hP _ hmem e he
      · rw [hnil]
        intro e he
        simp at he
    have hinner1 := mergeFold_no_self _ _ _ _ _ _ _ hstart hin
    subst hset
    intro p hp e he
    rcases setEntry_mem _ _ _ _ hp with hpe | hpe
    · subst hpe
      exact hinner1 e he
    · exact hP p hpe e he
  · intro p hp e he
    rw [initResults_snd _ _ hp] at he
    simp at he

/-- C3 witness: self-match suppression on a concrete completed job — the
resolved key `d0` of `q0`'s first result entry differs from `q0` itself. -/
theorem C3_no_self_match_witness :
    Prod.fst (("d0", (1:ℚ)))
      ≠ Prod.fst ("q0", [("d0", (1:ℚ)), ("d1", 0), ("d2", 1)]) :=
  C3_no_self_match exSt [exD0, exD1, exD2] [exQ0, exQ1] 1 "dot"
    { corpus_chunk_size := some 2, numDevices := 1, sort_corpus := true }
    [("q0", [("d0", (1:ℚ)), ("d1", 0), ("d2", 1)]),
     ("q1", [("d1", (1:ℚ)), ("d0", 0), ("d2", 1)])]
    (by with_unfolding_all decide)
    ("q0", [("d0", (1:ℚ)), ("d1", 0), ("d2", 1)]) (by decide)
    ("d0", (1:ℚ)) (by decide)

/-- C2: the merge stage resolves every non-sentinel table row's candidate for
query position `qi` at global corpus position
`indices[qi] + batch_index * chunk_size`, read off the corpus id sequence in
post-reordering stream order: whenever that resolved id differs from the
query id, it ends up among the keys of that query's inner results; and in
particular local index 2 of batch 1 with chunk size 3 resolves to global
position 5. -/
theorem C2_merge_global_position (st : DRPES) (corpus queries : List Item)
    (top_k : Nat) (sf : String) (st2 : DRPES) (res : Results) (table : List Row)
    (r : Row) (qi : Nat) (qid : String)
    (hok : search st corpus queries top_k sf = .ok (st2, res))
    (htab : searchTable st.numDevices (usedCs st corpus.length).toNat
        (queries.map Item.vec) (streamCorpus st corpus) top_k sf = .ok table)
    (hr : r ∈ table) (hb : ¬ r.batch_index = -1)
    (hqi : (queries.map Item.id)[qi]? = some qid)
    (hi1 : qi < r.indices.length) (hi2 : qi < r.values.length)
    (hpos : 0 ≤ globalPosition (r.indices.getD qi 0) r.batch_index
        (usedCs st corpus.length))
    (hlt : (globalPosition (r.indices.getD qi 0) r.batch_index
        (usedCs st corpus.length)).toNat
        < ((streamCorpus st corpus).map Item.id).length)
    (hne : ((streamCorpus st corpus).map Item.id).getD
        (globalPosition (r.indices.getD qi 0) r.batch_index
          (usedCs st corpus.length)).toNat "" ≠ qid) :
    ((streamCorpus st corpus).map Item.id).getD
        (globalPosition (r.indices.getD qi 0) r.batch_index
          (usedCs st corpus.length)).toNat ""
      ∈ (getEntry res qid).map Prod.fst
    ∧ globalPosition 2 1 3 = 5 := by
  rcases search_ok_elim _ _ _ _ _ _ _ hok with ⟨_, _, _, table2, htab2, hres⟩
  rw [htab] at htab2
  cases htab2
  have henum : (qi, qid) ∈ (queries.map Item.id).enum :=
    List.mem_enum_iff_getElem?.mpr hqi
  have hqid_mem : qid ∈ queries.map Item.id := by
    rcases List.getElem?_eq_some.mp hqi with ⟨hlt2, hval⟩
    exact hval ▸ List.getElem_mem hlt2
  rcases List.append_of_mem henum with ⟨L1, L2, hLsplit⟩
  unfold formatResults at hres
  rw [hLsplit] at hres
  rcases foldlM_append_ok _ _ _ _ _ hres with ⟨res1, hfold1, hrest⟩
  rcases foldlM_cons_ok _ _ _ _ _ hrest with ⟨res2, hstep, hfold2⟩
  have hkeys1 : res1.map Prod.fst = (initResults (queries.map Item.id)).map Prod.fst := by
    refine foldlM_inv _
      (fun s => s.map Prod.fst = (initResults (queries.map Item.id)).map Prod.fst)
      ?_ _ _ _ rfl hfold1
    intro s a s2 hP hstep2
    rcases formatStep_ok _ _ _ _ _ _ hstep2 with ⟨innerA, _, hsetA⟩
    rw [hsetA, setEntry_keys, hP]
  have hqid_keys1 : qid ∈ res1.map Prod.fst := by
    rw [hkeys1]
    exact initResults_keys_mem _ _ hqid_mem
  rcases formatStep_ok _ _ _ _ _ _ hstep with ⟨inner1, hin, hset⟩
  rcases List.append_of_mem hr with ⟨t1, t2, htsplit⟩
  rw [htsplit] at hin
  have hcid1 := mergeFold_adds ((streamCorpus st corpus).map Item.id)
    (usedCs st corpus.length) qi qid t1 t2 r _ _ hin hb hi1 hi2 hpos hlt hne
  have hres2keys : qid ∈ res2.map Prod.fst := by
    rw [hset, setEntry_keys]
    exact hqid_keys1
  have hcid2 : ((streamCorpus st corpus).map Item.id).getD
      (globalPosition (r.indices.getD qi 0) r.batch_index
        (usedCs st corpus.length)).toNat "" ∈ (getEntry res2 qid).map Prod.fst := by
    rw [hset, getEntry_setEntry_self _ _ _ hqid_keys1]
    exact hcid1
  have hfinal := foldlM_inv _
    (fun s => qid ∈ s.map Prod.fst
      ∧ ((streamCorpus st corpus).map Item.id).getD
          (globalPosition (r.indices.getD qi 0) r.batch_index
            (usedCs st corpus.length)).toNat "" ∈ (getEntry s qid).map Prod.fst)
    ?_ L2 res2 res ⟨hres2keys, hcid2⟩ hfold2
  · exact ⟨hfinal.2, by decide⟩
  · intro s a s2 hP hstep2
    rcases formatStep_ok _ _ _ _ _ _ hstep2 with ⟨innerA, hinA, hsetA⟩
    constructor
    · rw [hsetA, setEntry_keys]
      exact hP.1
    · by_cases hq2 : a.2 = qid
      · subst hq2
        have hmono := mergeFold_keys_mono _ _ _ _ _ _ _ _ hP.2 hinA
        rw [hsetA, getEntry_setEntry_self _ _ _ hP.1]
        exact hmono
      · rw [hsetA, getEntry_setEntry_ne _ _ _ _ (fun h => hq2 h.symm)]
        exact hP.2


/-- C2 witness: the merge formula on a concrete run — chunk size 2, the
batch-1 row's candidate for query 0 resolves to stream position
`0 + 1*2 = 2`, id `d2`, which indeed appears among `q0`'s result keys; and
the spec's own instance `2 + 1*3 = 5`. -/
theorem C2_merge_global_position_witness :
    ((streamCorpus exSt [exD0, exD1, exD2]).map Item.id).getD
        (globalPosition
          (({ values := [1, 1], indices := [0, 0], batch_index := 1 } : Row).indices.getD 0 0)
          ({ values := [1, 1], indices := [0, 0], batch_index := 1 } : Row).batch_index
          (usedCs exSt (List.length [exD0, exD1, exD2]))).toNat ""
      ∈ (getEntry [("q0", [("d0", (1:ℚ)), ("d1", 0), ("d2", 1)]),
                   ("q1", [("d1", (1:ℚ)), ("d0", 0), ("d2", 1)])] "q0").map Prod.fst
    ∧ globalPosition 2 1 3 = 5 :=
  C2_merge_global_position exSt [exD0, exD1, exD2] [exQ0, exQ1] 1 "dot"
    { corpus_chunk_size := some 2, numDevices := 1, sort_corpus := true }
    [("q0", [("d0", (1:ℚ)), ("d1", 0), ("d2", 1)]),
     ("q1", [("d1", (1:ℚ)), ("d0", 0), ("d2", 1)])]
    [sentinelRow,
     { values := [1, 1], indices := [0, 1], batch_index := 0 },
     { values := [0, 0], indices := [1, 0], batch_index := 0 },
     { values := [1, 1], indices := [0, 0], batch_index := 1 }]
    { values := [1, 1], indices := [0, 0], batch_index := 1 } 0 "q0"
    (by with_unfolding_all decide) (by with_unfolding_all decide)
    (by decide) (by decide)
    (by with_unfolding_all decide)
    (by decide) (by decide)
    (by with_unfolding_all decide) (by with_unfolding_all decide)
    (by with_unfolding_all decide)

/-- C4 counterexample: on a chunk scored for 3 queries and 2 corpus items
with `top_k = 0`, the worker emits 1 table row — the per-candidate rank
`min(top_k+1, n_chunk_items) = 1` — not 3 rows: after the transpose the
OUTER index is the candidate rank and the inner index is per-query, so
"transposed so the outer index is per-query" is false. -/
theorem C4_counterexample :
    workerRows [[some (1:ℚ), some 0], [some 0, some 1], [some 1, some 1]] 0 0
      = .ok [{ values := [1, 1, 1], indices := [0, 1, 0], batch_index := 0 }]
    ∧ List.length [[some (1:ℚ), some 0], [some 0, some 1], [some 1, some 1]] = 3
    ∧ ¬ ([({ values := [1, 1, 1], indices := [0, 1, 0], batch_index := 0 } : Row)].length
          = List.length [[some (1:ℚ), some 0], [some 0, some 1], [some 1, some 1]]) := by
  with_unfolding_all decide

/-- C4 (amended): the worker selects, per query, the top
`min(top_k + 1, n_chunk_items)` highest scores of the NaN-replaced row —
unsorted selection with distinct in-bounds indices, every selected value at
least every unselected one — and emits them transposed so that the OUTER
index is the local candidate rank (`min(top_k+1, n_chunk_items)` rows) and
the inner index is per-query. -/
theorem C4_worker_selection (raw : List (List (Option ℚ))) (top_k : Nat)
    (b : Int) (nc : Nat) (h2 : 2 ≤ raw.length)
    (hrect : ∀ r ∈ raw, r.length = nc) :
    ∃ rows, workerRows raw top_k b = .ok rows
      ∧ rows.length = min (top_k + 1) nc
      ∧ (∀ r ∈ rows, r.batch_index = b
          ∧ r.values.length = raw.length ∧ r.indices.length = raw.length)
      ∧ ∀ qi, qi < raw.length →
          (∀ j, j < min (top_k + 1) nc →
            ((rows.getD j sentinelRow).values.getD qi 0,
             ((rows.getD j sentinelRow).indices.getD qi 0).toNat)
              ∈ topkSelect (min (top_k + 1) nc) ((raw.getD qi []).map replaceNaN))
          ∧ (∀ p ∈ topkSelect (min (top_k + 1) nc) ((raw.getD qi []).map replaceNaN),
              p.2 < nc
              ∧ ((raw.getD qi []).map replaceNaN).getD p.2 0 = p.1
              ∧ ∀ i, i < nc →
                  i ∉ (topkSelect (min (top_k + 1) nc)
                      ((raw.getD qi []).map replaceNaN)).map Prod.snd →
                  ((raw.getD qi []).map replaceNaN).getD i 0 ≤ p.1)
          ∧ ((topkSelect (min (top_k + 1) nc)
              ((raw.getD qi []).map replaceNaN)).map Prod.snd).Nodup := by
  rcases workerRows_spec raw top_k b nc h2 hrect with ⟨rows, hok, hlen, hshape, hent⟩
  refine ⟨rows, hok, hlen, hshape, ?_⟩
  intro qi hqi
  have hsrowlen : ((raw.getD qi []).map replaceNaN).length = nc := by
    rw [List.length_map, List.getD_eq_getElem _ _ hqi]
    exact hrect _ (List.getElem_mem hqi)
  have hselLen : (topkSelect (min (top_k + 1) nc)
      ((raw.getD qi []).map replaceNaN)).length = min (top_k + 1) nc := by
    rw [topkSelect_length, hsrowlen]
    omega
  refine ⟨?_, ?_, topkSelect_nodup_idx _ _⟩
  · intro j hj
    rcases hent j qi hj hqi with ⟨hv, hi⟩
    rw [hv, hi, Int.toNat_natCast, Prod.mk.eta]
    have hjsel : j < (topkSelect (min (top_k + 1) nc)
        ((raw.getD qi []).map replaceNaN)).length := by
      rw [hselLen]
      exact hj
    rw [List.getD_eq_getElem _ _ hjsel]
    exact List.getElem_mem hjsel
  · intro p hp
    have hmem := topkSelect_mem _ _ _ hp
    refine ⟨by rw [hsrowlen] at hmem; exact hmem.1, hmem.2, ?_⟩
    intro i hi hnot
    exact topkSelect_dominates _ _ _ hp i (by rw [hsrowlen]; exact hi) hnot

/-- C4 witness: the amended statement on the 3-query, 2-item chunk with
`top_k = 0`. -/
theorem C4_worker_selection_witness :
    ∃ rows, workerRows [[some (1:ℚ), some 0], [some 0, some 1], [some 1, some 1]] 0 0
        = .ok rows
      ∧ rows.length = min (0 + 1) 2
      ∧ (∀ r ∈ rows, r.batch_index = 0
          ∧ r.values.length
              = List.length [[some (1:ℚ), some 0], [some 0, some 1], [some 1, some 1]]
          ∧ r.indices.length
              = List.length [[some (1:ℚ), some 0], [some 0, some 1], [some 1, some 1]])
      ∧ ∀ qi, qi < List.length [[some (1:ℚ), some 0], [some 0, some 1], [some 1, some 1]] →
          (∀ j, j < min (0 + 1) 2 →
            ((rows.getD j sentinelRow).values.getD qi 0,
             ((rows.getD j sentinelRow).indices.getD qi 0).toNat)
              ∈ topkSelect (min (0 + 1) 2)
                  (([[some (1:ℚ), some 0], [some 0, some 1], [some 1, some 1]].getD qi []).map
                    replaceNaN))
          ∧ (∀ p ∈ topkSelect (min (0 + 1) 2)
                (([[some (1:ℚ), some 0], [some 0, some 1], [some 1, some 1]].getD qi []).map
                  replaceNaN),
              p.2 < 2
              ∧ (([[some (1:ℚ), some 0], [some 0, some 1], [some 1, some 1]].getD qi []).map
                  replaceNaN).getD p.2 0 = p.1
              ∧ ∀ i, i < 2 →
                  i ∉ (topkSelect (min (0 + 1) 2)
                      (([[some (1:ℚ), some 0], [some 0, some 1], [some 1, some 1]].getD qi []).map
                        replaceNaN)).map Prod.snd →
                  (([[some (1:ℚ), some 0], [some 0, some 1], [some 1, some 1]].getD qi []).map
                    replaceNaN).getD i 0 ≤ p.1)
          ∧ ((topkSelect (min (0 + 1) 2)
              (([[some (1:ℚ), some 0], [some 0, some 1], [some 1, some 1]].getD qi []).map
                replaceNaN)).map Prod.snd).Nodup :=
  C4_worker_selection [[some (1:ℚ), some 0], [some 0, some 1], [some 1, some 1]] 0 0 2
    (by decide) (by decide)

/-- C5 counterexample: the zero-vector corpus item `d2` (NaN under `cos_sim`,
replaced by `-1`) DOES appear in `q0`'s final results — it is alone in the
final chunk, so the `min(top_k+1, chunk_len)` selection picks it despite its
sentinel score, and the merge never filters it out. -/
theorem C5_counterexample :
    innerOf (search exSt [exD0, exD1, exD2zero] [exQ0, exQ1] 2 "cos_sim") "q0"
      = [("d0", 1), ("d1", 0), ("d2", -1)]
    ∧ normSq exD2zero.vec = 0 := by
  with_unfolding_all decide

/-- C5 (amended): every NaN score entry is replaced with the sentinel `-1`
before top-k selection — the worker's output depends only on the NaN-replaced
matrix and is produced without error — and a NaN-scored item is never
selected for a query whose NaN-replaced row has at least
`min(top_k+1, n_chunk_items)` entries strictly above `-1`; it can appear in
results only when its chunk is too small to fill the selection with real
candidates. -/
theorem C5_nan_replacement (raw : List (List (Option ℚ))) (top_k : Nat)
    (b : Int) (nc : Nat) (h2 : 2 ≤ raw.length)
    (hrect : ∀ r ∈ raw, r.length = nc) :
    (∀ raw2, raw2.map (fun r => r.map replaceNaN) = raw.map (fun r => r.map replaceNaN) →
        workerRows raw2 top_k b = workerRows raw top_k b)
    ∧ ∃ rows, workerRows raw top_k b = .ok rows
        ∧ ∀ qi p, qi < raw.length → p < nc →
            (raw.getD qi []).getD p (some 0) = none →
            min (top_k + 1) nc
              ≤ ((raw.getD qi []).map replaceNaN).countP (fun v => decide ((-1:ℚ) < v)) →
            ∀ r ∈ rows, ¬ r.indices.getD qi 0 = (p : Int) := by
  constructor
  · intro raw2 hraw2
    unfold workerRows
    rw [hraw2]
  · rcases workerRows_spec raw top_k b nc h2 hrect with ⟨rows, hok, hlen, _, hent⟩
    refine ⟨rows, hok, ?_⟩
    intro qi p hqi hp hnan hcount r hrin heq
    rcases List.mem_iff_getElem.mp hrin with ⟨j, hjlt, hjr⟩
    have hjK : j < min (top_k + 1) nc := by
      rw [← hlen]
      exact hjlt
    rcases hent j qi hjK hqi with ⟨_, hidx⟩
    have hrget : rows.getD j sentinelRow = r := by
      rw [List.getD_eq_getElem _ _ hjlt, hjr]
    rw [hrget, heq] at hidx
    have hp2 : ((topkSelect (min (top_k + 1) nc)
        ((raw.getD qi []).map replaceNaN)).getD j (0, 0)).2 = p := by
      exact_mod_cast hidx.symm
    have hsrowlen : ((raw.getD qi []).map replaceNaN).length = nc := by
      rw [List.length_map, List.getD_eq_getElem _ _ hqi]
      exact hrect _ (List.getElem_mem hqi)
    have hselLen : (topkSelect (min (top_k + 1) nc)
        ((raw.getD qi []).map replaceNaN)).length = min (top_k + 1) nc := by
      rw [topkSelect_length, hsrowlen]
      omega
    have hjsel : j < (topkSelect (min (top_k + 1) nc)
        ((raw.getD qi []).map replaceNaN)).length := by
      rw [hselLen]
      exact hjK
    have hpair : (topkSelect (min (top_k + 1) nc)
        ((raw.getD qi []).map replaceNaN)).getD j (0, 0)
        ∈ topkSelect (min (top_k + 1) nc) ((raw.getD qi []).map replaceNaN) := by
      rw [List.getD_eq_getElem _ _ hjsel]
      exact List.getElem_mem hjsel
    have habove := topkSelect_above _ _ (-1) hcount _ hpair
    have hval := (topkSelect_mem _ _ _ hpair).2
    rw [hp2] at hval
    have hplen : p < (raw.getD qi []).length := by
      rw [List.getD_eq_getElem _ _ hqi]
      rw [hrect _ (List.getElem_mem hqi)]
      exact hp
    rw [List.getD_eq_getElem _ _ hplen] at hnan
    have hminus : ((raw.getD qi []).map replaceNaN).getD p 0 = -1 := by
      rw [getD_map replaceNaN _ p 0 hplen, hnan]
      rfl
    rw [hminus] at hval
    rw [← hval] at habove
    exact lt_irrefl _ habove

/-- C5 witness: the amended statement on a 2-query chunk whose second column
is NaN for both queries. -/
theorem C5_nan_replacement_witness :
    (∀ raw2, raw2.map (fun r => r.map replaceNaN)
          = [[some (1:ℚ), none], [some 0, none]].map (fun r => r.map replaceNaN) →
        workerRows raw2 0 0 = workerRows [[some (1:ℚ), none], [some 0, none]] 0 0)
    ∧ ∃ rows, workerRows [[some (1:ℚ), none], [some 0, none]] 0 0 = .ok rows
        ∧ ∀ qi p, qi < List.length [[some (1:ℚ), none], [some 0, none]] → p < 2 →
            ([[some (1:ℚ), none], [some 0, none]].getD qi []).getD p (some 0) = none →
            min (0 + 1) 2
              ≤ (([[some (1:ℚ), none], [some 0, none]].getD qi []).map replaceNaN).countP
                  (fun v => decide ((-1:ℚ) < v)) →
            ∀ r ∈ rows, ¬ r.indices.getD qi 0 = (p : Int) :=
  C5_nan_replacement [[some (1:ℚ), none], [some 0, none]] 0 0 2
    (by decide) (by decide)

end BeirMultiGPU
